import Mathlib

/-!
Verification of the copyscripts repository (copyscripts.py, COPYSCRIPTS_SELECTIVE.py,
REVERT-to-GPT-scripts.py, repair-remarks.py).

Strings are modelled as lists of characters (`Str`).  Python text is ASCII in all the
behaviour under study; `str.strip()` and the regex class `\s` are modelled over the six
ASCII whitespace characters.  Natural-number subtraction models the clamped
`max(i - 8, 0)` of the Python source, since `Nat` subtraction truncates at zero.
-/

set_option maxRecDepth 8000

abbrev Str := List Char

def str (s : String) : Str := s.data

def nlc : Char := '\n'
def eqc : Char := '='
def hashc : Char := '#'
def aposc : Char := Char.ofNat 39
def btickc : Char := Char.ofNat 96

/-- ASCII whitespace, the characters stripped by Python `str.strip()` and matched by `\s`. -/
def isPyWs (c : Char) : Bool :=
  c == ' ' || c == '\t' || c == '\n' || c == '\r' || c == Char.ofNat 11 || c == Char.ofNat 12

def isDigitC (c : Char) : Bool := '0' ≤ c && c ≤ '9'

/-- Python `str.lstrip()`. -/
def pyLstrip (s : Str) : Str := s.dropWhile isPyWs

/-- Python `str.rstrip()`. -/
def pyRstrip (s : Str) : Str := (s.reverse.dropWhile isPyWs).reverse

/-- Python `str.strip()`. -/
def pyStrip (s : Str) : Str := pyRstrip (pyLstrip s)

/-- Python `str.strip` applied with the backtick character as its argument. -/
def stripBticks (s : Str) : Str :=
  ((s.dropWhile (· == btickc)).reverse.dropWhile (· == btickc)).reverse

def toLowerStr (s : Str) : Str := s.map Char.toLower

/-- Boolean prefix test. -/
def leadsWith : Str → Str → Bool
  | [], _ => true
  | _ :: _, [] => false
  | p :: ps, c :: cs => p == c && leadsWith ps cs

/-- Boolean suffix test, as in Python `str.endswith`. -/
def trailsWith (p s : Str) : Bool := leadsWith p.reverse s.reverse

/-- Python substring containment, `pat in s`. -/
def containsSub (pat : Str) : Str → Bool
  | [] => leadsWith pat []
  | c :: cs => leadsWith pat (c :: cs) || containsSub pat cs

/-- Python `s.split(sep)` for a one-character separator. -/
def splitOnChar (sep : Char) : Str → List Str
  | [] => [[]]
  | c :: cs =>
    match splitOnChar sep cs with
    | [] => [[c]]
    | h :: t => if c == sep then [] :: h :: t else (c :: h) :: t

/-- Python `sep.join(pieces)`. -/
def joinWith (sep : Str) : List Str → Str
  | [] => []
  | [x] => x
  | x :: y :: t => x ++ sep ++ joinWith sep (y :: t)

/-- Consume a literal prefix, returning the remainder on success. -/
def dropLit : Str → Str → Option Str
  | [], s => some s
  | _ :: _, [] => none
  | p :: ps, c :: cs => if p == c then dropLit ps cs else none

/-! ## COPYSCRIPTS_SELECTIVE.py, `extract_relevant_log_section` -/

/--
`extract_relevant_log_section` from COPYSCRIPTS_SELECTIVE.py: the start index is taken
from the first line containing "ERROR" when one exists, and only otherwise from the first
line containing "Traceback"; `Nat` subtraction renders Python `max(first - 8, 0)`.
-/
def extract_relevant_log_section (log : Str) : Str :=
  let lines := splitOnChar nlc log
  let errorIndices := ((lines.enum).filter (fun pr => containsSub (str ("ERROR")) pr.2)).map Prod.fst
  let tracebackIndices := ((lines.enum).filter (fun pr => containsSub (str ("Traceback")) pr.2)).map Prod.fst
  let startIndex :=
    match errorIndices.head? with
    | some e => e - 8
    | none =>
      match tracebackIndices.head? with
      | some t => t - 8
      | none => 0
  joinWith [nlc] (lines.drop startIndex)

/-- Index of the earliest element satisfying `P`. -/
def earliestIdx (P : Str → Bool) : List Str → Option Nat
  | [] => none
  | l :: ls => if P l then some 0 else (earliestIdx P ls).map (· + 1)

/--
Written from the claim text of C5: the excerpt begins eight lines before the smaller of
the earliest "ERROR" line index and the earliest "Traceback" line index, clamped to
line 0, and runs to the end of the log.
-/
def claimedLogExcerpt (log : Str) : Str :=
  let lines := splitOnChar nlc log
  let e? := earliestIdx (fun l => containsSub (str ("ERROR")) l) lines
  let t? := earliestIdx (fun l => containsSub (str ("Traceback")) l) lines
  match e?, t? with
  | some e, some t => joinWith [nlc] (lines.drop (min e t - 8))
  | some e, none => joinWith [nlc] (lines.drop (e - 8))
  | none, some t => joinWith [nlc] (lines.drop (t - 8))
  | none, none => joinWith [nlc] lines

/--
Written from the amended claim of C5: the excerpt begins eight lines before the earliest
"ERROR" line when one exists, otherwise eight lines before the earliest "Traceback" line,
clamped to line 0, and runs to the end of the log.
-/
def amendedLogExcerpt (log : Str) : Str :=
  let lines := splitOnChar nlc log
  match earliestIdx (fun l => containsSub (str ("ERROR")) l) lines with
  | some e => joinWith [nlc] (lines.drop (e - 8))
  | none =>
    match earliestIdx (fun l => containsSub (str ("Traceback")) l) lines with
    | some t => joinWith [nlc] (lines.drop (t - 8))
    | none => joinWith [nlc] lines

theorem head_filter_enumFrom_eq_earliestIdx (P : Str → Bool) (lines : List Str) (n : Nat) :
    (((List.enumFrom n lines).filter (fun pr => P pr.2)).map Prod.fst).head?
      = (earliestIdx P lines).map (· + n) := by
  induction lines generalizing n with
  | nil => rfl
  | cons l ls ih =>
    simp only [List.enumFrom, earliestIdx, List.filter_cons]
    by_cases h : P l
    · simp [h]
    · simp only [h, if_neg, Bool.false_eq_true, ite_false]
      rw [ih (n + 1)]
      cases earliestIdx P ls with
      | none => rfl
      | some k =>
        simp [Option.map_some, Nat.add_assoc, Nat.add_comm 1 n]

theorem head_filter_enum_eq_earliestIdx (P : Str → Bool) (lines : List Str) :
    (((lines.enum).filter (fun pr => P pr.2)).map Prod.fst).head?
      = earliestIdx P lines := by
  have := head_filter_enumFrom_eq_earliestIdx P lines 0
  simpa [List.enum] using this

/--
C5 (amended): for every log text, the extracted excerpt begins eight lines before the
earliest line containing "ERROR" when such a line exists, and only otherwise eight lines
before the earliest line containing "Traceback", clamped to line 0, running to the end of
the log; the earliest "Traceback" index is ignored whenever an "ERROR" line exists.
-/
theorem C5_log_excerpt_amended (log : Str) :
    extract_relevant_log_section log = amendedLogExcerpt log := by
  unfold extract_relevant_log_section amendedLogExcerpt
  simp only [head_filter_enum_eq_earliestIdx]
  cases he : earliestIdx (fun l => containsSub (str ("ERROR")) l) (splitOnChar nlc log) with
  | some e => rfl
  | none =>
    cases ht : earliestIdx (fun l => containsSub (str ("Traceback")) l) (splitOnChar nlc log) with
    | some t => rfl
    | none => simp

/-! ## List and strip lemmas -/

theorem dropWhile_append_all {p : Char → Bool} {l₁ l₂ : Str}
    (h : ∀ a ∈ l₁, p a = true) :
    List.dropWhile p (l₁ ++ l₂) = List.dropWhile p l₂ := by
  induction l₁ with
  | nil => rfl
  | cons a t ih =>
    have ha : p a = true := h a (List.mem_cons_self a t)
    simp only [List.cons_append, List.dropWhile_cons, ha, if_true]
    exact ih (fun b hb => h b (List.mem_cons_of_mem a hb))

theorem takeWhile_append_all {p : Char → Bool} {l₁ l₂ : Str}
    (h : ∀ a ∈ l₁, p a = true) :
    List.takeWhile p (l₁ ++ l₂) = l₁ ++ List.takeWhile p l₂ := by
  induction l₁ with
  | nil => rfl
  | cons a t ih =>
    have ha : p a = true := h a (List.mem_cons_self a t)
    simp only [List.cons_append, List.takeWhile_cons, ha, if_true]
    rw [ih (fun b hb => h b (List.mem_cons_of_mem a hb))]

theorem dropWhile_append_singleton {p : Char → Bool} {c : Char} (hc : p c = false) (l : Str) :
    List.dropWhile p (l ++ [c]) = List.dropWhile p l ++ [c] := by
  induction l with
  | nil => simp [List.dropWhile_cons, hc]
  | cons a t ih =>
    by_cases ha : p a
    · simp only [List.cons_append, List.dropWhile_cons, ha, if_true]
      exact ih
    · simp [List.dropWhile_cons, ha]

theorem mem_of_mem_dropWhile {p : Char → Bool} {a : Char} {l : Str}
    (h : a ∈ List.dropWhile p l) : a ∈ l :=
  (List.dropWhile_sublist (p := p) (l := l)).mem h

theorem mem_of_mem_takeWhile {p : Char → Bool} {a : Char} {l : Str}
    (h : a ∈ List.takeWhile p l) : a ∈ l :=
  (List.takeWhile_sublist (p := p) (l := l)).mem h

theorem pyRstrip_cons_of_not_ws {c : Char} (hc : isPyWs c = false) (t : Str) :
    pyRstrip (c :: t) = c :: pyRstrip t := by
  unfold pyRstrip
  have : (c :: t).reverse = t.reverse ++ [c] := by simp
  rw [this, dropWhile_append_singleton hc, List.reverse_append]
  simp

theorem pyRstrip_append_ws {w : Str} (hw : ∀ a ∈ w, isPyWs a = true) (s : Str) :
    pyRstrip (s ++ w) = pyRstrip s := by
  unfold pyRstrip
  rw [List.reverse_append, dropWhile_append_all (by simpa using hw)]

theorem mem_of_mem_pyRstrip {a : Char} {s : Str} (h : a ∈ pyRstrip s) : a ∈ s := by
  unfold pyRstrip at h
  rw [List.mem_reverse] at h
  have := mem_of_mem_dropWhile h
  simpa using this

theorem pyStrip_ws_left {w : Str} (hw : ∀ a ∈ w, isPyWs a = true) (s : Str) :
    pyStrip (w ++ s) = pyStrip s := by
  unfold pyStrip pyLstrip
  rw [dropWhile_append_all hw]

theorem dropWhile_nil_iff_all {p : Char → Bool} {l : Str} :
    List.dropWhile p l = [] ↔ ∀ a ∈ l, p a = true := by
  induction l with
  | nil => simp
  | cons a t ih =>
    by_cases ha : p a
    · simp [List.dropWhile_cons, ha, ih]
    · simp [List.dropWhile_cons, ha]

theorem dropWhile_head_false {p : Char → Bool} {l : Str} {c : Char} {t : Str}
    (h : List.dropWhile p l = c :: t) : p c = false := by
  induction l with
  | nil => simp at h
  | cons a u ih =>
    by_cases ha : p a
    · simp only [List.dropWhile_cons, ha, if_true] at h
      exact ih h
    · simp only [List.dropWhile_cons, ha, if_false] at h
      cases h
      simp [ha]

theorem dropWhile_append_left {p : Char → Bool} {s : Str} (t : Str)
    (h : List.dropWhile p s ≠ []) :
    List.dropWhile p (s ++ t) = List.dropWhile p s ++ t := by
  induction s with
  | nil => exact absurd rfl h
  | cons a u ih =>
    by_cases ha : p a
    · simp only [List.cons_append, List.dropWhile_cons, ha, if_true]
      simp only [List.dropWhile_cons, ha, if_true] at h
      exact ih h
    · simp [List.dropWhile_cons, ha]

theorem pyStrip_ws_right {w : Str} (hw : ∀ a ∈ w, isPyWs a = true) (s : Str) :
    pyStrip (s ++ w) = pyStrip s := by
  unfold pyStrip pyLstrip
  by_cases h : List.dropWhile isPyWs s = []
  · rw [dropWhile_append_all (dropWhile_nil_iff_all.mp h), h,
      dropWhile_nil_iff_all.mpr hw]
  · rw [dropWhile_append_left w h, pyRstrip_append_ws hw]

/-- A string whose strip is empty consists of whitespace only. -/
theorem all_ws_of_pyStrip_nil {s : Str} (h : pyStrip s = []) : ∀ a ∈ s, isPyWs a = true := by
  by_contra hfalse
  push_neg at hfalse
  obtain ⟨a, ha, hne⟩ := hfalse
  have hna : isPyWs a = false := by
    cases hx : isPyWs a
    · rfl
    · exact absurd hx hne
  have hdw : List.dropWhile isPyWs s ≠ [] := by
    intro hcon
    rw [dropWhile_nil_iff_all.mp hcon a ha] at hna
    exact Bool.noConfusion hna
  obtain ⟨c, t, hct⟩ := List.exists_cons_of_ne_nil hdw
  have hc : isPyWs c = false := dropWhile_head_false hct
  unfold pyStrip pyLstrip at h
  rw [hct, pyRstrip_cons_of_not_ws hc] at h
  exact List.noConfusion h

/-- The strip of a string starting with a non-whitespace character keeps that head. -/
theorem pyStrip_cons_of_not_ws {c : Char} (hc : isPyWs c = false) (t : Str) :
    pyStrip (c :: t) = c :: pyRstrip t := by
  unfold pyStrip pyLstrip
  rw [List.dropWhile_cons, hc]
  simp only [Bool.false_eq_true, if_false]
  exact pyRstrip_cons_of_not_ws hc t

/-! ## repair-remarks.py, `process_file`

The per-file transformation reads the file as a list of lines (`readlines`), runs the
comment-removal loop, and writes the concatenation of the modified lines back only when a
change was counted.
-/

/-- The banner comment `f'# {filename}'`. -/
def correctComment (filename : Str) : Str := [hashc, ' '] ++ filename

structure RepairState where
  modified_lines : List Str
  found_correct_comment : Bool
  in_line_comments_removed : Nat
  standalone_comments_removed : Nat
  duplicate_correct_comments_removed : Nat

/-- One iteration of the `for line in lines` loop of `process_file`. -/
def repairLine (correct : Str) (st : RepairState) (line : Str) : RepairState :=
  let stripped := pyStrip line
  if stripped = correct then
    if st.found_correct_comment = false then
      { st with modified_lines := st.modified_lines ++ [line], found_correct_comment := true }
    else
      { st with duplicate_correct_comments_removed := st.duplicate_correct_comments_removed + 1 }
  else if leadsWith [hashc] stripped then
    { st with standalone_comments_removed := st.standalone_comments_removed + 1 }
  else if line.any (· == hashc) then
    let code_part := line.takeWhile (· != hashc)
    let comment_part := (line.dropWhile (· != hashc)).drop 1
    if pyStrip code_part ≠ [] then
      { st with
        modified_lines := st.modified_lines ++ [pyRstrip code_part ++ [nlc]],
        in_line_comments_removed :=
          if pyStrip comment_part ≠ [] then st.in_line_comments_removed + 1
          else st.in_line_comments_removed }
    else
      { st with modified_lines := st.modified_lines ++ [line] }
  else
    { st with modified_lines := st.modified_lines ++ [line] }

/-- The `for line in lines` loop of `process_file`, from the empty initial state. -/
def repairFold (filename : Str) (lines : List Str) : RepairState :=
  lines.foldl (repairLine (correctComment filename)) ⟨[], false, 0, 0, 0⟩

/-- The loop of `process_file` over the lines, the banner insertion, and the
`modified` flag computation. -/
def process_file_lines (filename : Str) (lines : List Str) : List Str × Bool :=
  let st := repairFold filename lines
  let finalLines :=
    if st.found_correct_comment = false then
      (correctComment filename ++ [nlc]) :: st.modified_lines
    else st.modified_lines
  let modified :=
    decide (0 < st.in_line_comments_removed) || decide (0 < st.standalone_comments_removed) ||
      decide (0 < st.duplicate_correct_comments_removed) ||
      (st.found_correct_comment == false)
  (finalLines, modified)

/-- Python text-mode `readlines`: split into lines keeping the newline terminators. -/
def splitLinesKeepEnds : Str → List Str
  | [] => []
  | c :: cs =>
    if c = nlc then [nlc] :: splitLinesKeepEnds cs
    else
      match splitLinesKeepEnds cs with
      | [] => [[c]]
      | h :: t => (c :: h) :: t

/-- `process_file` at the level of the file content: the file is rewritten
(with `writelines`) only when `modified` is true. -/
def process_file_content (filename : Str) (content : Str) : Str × Bool :=
  let r := process_file_lines filename (splitLinesKeepEnds content)
  (if r.2 then r.1.flatten else content, r.2)

theorem takeWhile_mem_pred {p : Char → Bool} {a : Char} {l : Str}
    (h : a ∈ List.takeWhile p l) : p a = true := by
  induction l with
  | nil => simp at h
  | cons c t ih =>
    by_cases hc : p c
    · simp only [List.takeWhile_cons, hc, if_true, List.mem_cons] at h
      cases h with
      | inl he => cases he; exact hc
      | inr hm => exact ih hm
    · simp [List.takeWhile_cons, hc] at h

theorem dropWhile_ne_of_any {c : Char} {l : Str} (h : l.any (· == c) = true) :
    ∃ t, List.dropWhile (· != c) l = c :: t := by
  induction l with
  | nil => simp at h
  | cons a u ih =>
    by_cases ha : a = c
    · subst ha
      refine ⟨u, ?_⟩
      simp [List.dropWhile_cons]
    · have hne : (a != c) = true := by simp [bne, ha]
      simp only [List.any_cons] at h
      have hu : u.any (· == c) = true := by
        cases hx : u.any (· == c)
        · rw [hx] at h
          simp only [Bool.or_false] at h
          exact absurd (by simpa using h) ha
        · rfl
      obtain ⟨t, ht⟩ := ih hu
      exact ⟨t, by simp [List.dropWhile_cons, hne, ht]⟩

/-- The head of the Python strip of a line that has text before its first `#`:
the stripped line starts with that text, in particular not with `#`. -/
theorem pyStrip_head_of_code {line : Str}
    (hcode : pyStrip (line.takeWhile (· != hashc)) ≠ []) :
    ∃ d rest, pyStrip line = d :: rest ∧ isPyWs d = false ∧ d ≠ hashc := by
  set pre := line.takeWhile (· != hashc) with hpre
  have hsplit : line = pre ++ line.dropWhile (· != hashc) :=
    (List.takeWhile_append_dropWhile (· != hashc) line).symm
  have hpre2 : pre = pre.takeWhile isPyWs ++ pre.dropWhile isPyWs :=
    (List.takeWhile_append_dropWhile isPyWs pre).symm
  have hdw : pre.dropWhile isPyWs ≠ [] := by
    intro hcon
    exact hcode (by
      unfold pyStrip pyLstrip
      rw [hcon]
      rfl)
  obtain ⟨d, rest0, hd⟩ := List.exists_cons_of_ne_nil hdw
  have hdws : isPyWs d = false := dropWhile_head_false hd
  have hdmem : d ∈ pre := mem_of_mem_dropWhile (hd ▸ List.mem_cons_self d rest0)
  have hdne : d ≠ hashc := by
    have := takeWhile_mem_pred (hpre ▸ hdmem)
    simpa [bne] using this
  have hwall : ∀ a ∈ pre.takeWhile isPyWs, isPyWs a = true := fun a ha => takeWhile_mem_pred ha
  refine ⟨d, pyRstrip (rest0 ++ line.dropWhile (· != hashc)), ?_, hdws, hdne⟩
  conv_lhs => rw [hsplit, hpre2]
  rw [List.append_assoc, pyStrip_ws_left hwall, hd]
  rw [List.cons_append, pyStrip_cons_of_not_ws hdws]

/-- In the in-line-comment branch (text before the first `#`), `repairLine` keeps exactly
the right-trimmed code prefix followed by a newline. -/
theorem repairLine_inline (filename : Str) (st : RepairState) (line : Str)
    (hany : line.any (· == hashc) = true)
    (hcode : pyStrip (line.takeWhile (· != hashc)) ≠ []) :
    (repairLine (correctComment filename) st line).modified_lines
      = st.modified_lines ++ [pyRstrip (line.takeWhile (· != hashc)) ++ [nlc]] := by
  obtain ⟨d, rest, hstrip, hdws, hdne⟩ := @pyStrip_head_of_code line hcode
  have h1 : ¬ (pyStrip line = correctComment filename) := by
    rw [hstrip]
    unfold correctComment
    intro hcon
    cases hcon
    exact hdne rfl
  have h2 : ¬ (leadsWith [hashc] (pyStrip line) = true) := by
    rw [hstrip]
    simp [leadsWith, beq_iff_eq]
    intro hcon
    exact hdne hcon.symm
  simp only [repairLine]
  rw [if_neg h1, if_neg h2, if_pos hany, if_pos hcode]

/-- The per-output-line invariant of the repair loop: each kept line either strip-equals
the banner or contains no `#` at all. -/
def RepairP (filename : Str) (l : Str) : Prop :=
  pyStrip l = correctComment filename ∨ l.any (· == hashc) = false

theorem repairLine_preserves (filename : Str) (st : RepairState) (line : Str)
    (h : ∀ x ∈ st.modified_lines, RepairP filename x) :
    ∀ x ∈ (repairLine (correctComment filename) st line).modified_lines,
      RepairP filename x := by
  intro x hx
  by_cases hc1 : pyStrip line = correctComment filename
  · by_cases hf : st.found_correct_comment = false
    · simp only [repairLine, if_pos hc1, if_pos hf, List.mem_append] at hx
      rcases hx with hm | hm
      · exact h x hm
      · simp only [List.mem_singleton] at hm
        rw [hm]
        exact Or.inl hc1
    · simp only [repairLine, if_pos hc1, if_neg hf] at hx
      exact h x hx
  · by_cases hc2 : leadsWith [hashc] (pyStrip line) = true
    · simp only [repairLine, if_neg hc1, if_pos hc2] at hx
      exact h x hx
    · by_cases hc3 : line.any (· == hashc) = true
      · by_cases hc4 : pyStrip (line.takeWhile (· != hashc)) = []
        · -- dead branch: the text before the first `#` is all whitespace, so the
          -- stripped line starts with `#`, contradicting hc2
          exfalso
          apply hc2
          obtain ⟨t, ht⟩ := dropWhile_ne_of_any hc3
          have hall : ∀ a ∈ line.takeWhile (· != hashc), isPyWs a = true :=
            all_ws_of_pyStrip_nil hc4
          have hline : line = line.takeWhile (· != hashc) ++ (hashc :: t) := by
            rw [← ht]
            exact (List.takeWhile_append_dropWhile (· != hashc) line).symm
          rw [hline, pyStrip_ws_left hall, pyStrip_cons_of_not_ws (by decide)]
          simp [leadsWith]
        · simp only [repairLine, if_neg hc1, if_neg hc2, if_pos hc3, if_pos hc4,
            List.mem_append] at hx
          rcases hx with hm | hm
          · exact h x hm
          · simp only [List.mem_singleton] at hm
            rw [hm]
            refine Or.inr ?_
            rw [List.any_eq_false]
            intro a ha
            rw [List.mem_append] at ha
            rcases ha with hmem | hmem
            · have := takeWhile_mem_pred (mem_of_mem_pyRstrip hmem)
              simpa [beq_iff_eq] using this
            · simp only [List.mem_singleton] at hmem
              rw [hmem]
              simp [beq_iff_eq, nlc, hashc]
      · simp only [repairLine, if_neg hc1, if_neg hc2, if_neg hc3, List.mem_append] at hx
        rcases hx with hm | hm
        · exact h x hm
        · simp only [List.mem_singleton] at hm
          rw [hm]
          refine Or.inr ?_
          cases hx2 : line.any (· == hashc)
          · rfl
          · exact absurd hx2 hc3

theorem foldl_repair_preserves (filename : Str) (lines : List Str) (st : RepairState)
    (h : ∀ x ∈ st.modified_lines, RepairP filename x) :
    ∀ x ∈ (List.foldl (repairLine (correctComment filename)) st lines).modified_lines,
      RepairP filename x := by
  induction lines generalizing st with
  | nil => exact h
  | cons line rest ih =>
    intro x hx
    exact ih _ (repairLine_preserves filename st line h) x hx

/--
C9: the normalizer treats the first `#` on any line as a comment start regardless of
context. First conjunct: a line whose prefix before its first `#` contains non-blank text
contributes exactly the right-trimmed prefix (plus a newline) to the modified lines.
Second conjunct: every line of the computed normalization result either strip-equals the
banner comment or contains no `#` at all.
-/
theorem C9_hash_always_comment (filename : Str)
    (hb : pyStrip (correctComment filename) = correctComment filename) :
    (∀ (st : RepairState) (line : Str),
        line.any (· == hashc) = true →
        pyStrip (line.takeWhile (· != hashc)) ≠ [] →
        (repairLine (correctComment filename) st line).modified_lines
          = st.modified_lines ++ [pyRstrip (line.takeWhile (· != hashc)) ++ [nlc]])
    ∧ ∀ (lines : List Str) (l : Str), l ∈ (process_file_lines filename lines).1 →
        pyStrip l = correctComment filename ∨ l.any (· == hashc) = false := by
  constructor
  · exact fun st line h1 h2 => repairLine_inline filename st line h1 h2
  · intro lines l hl
    have hmain : ∀ x ∈ (repairFold filename lines).modified_lines, RepairP filename x :=
      foldl_repair_preserves filename lines ⟨[], false, 0, 0, 0⟩
        (by intro x hx; simp at hx)
    simp only [process_file_lines] at hl
    by_cases hf : (repairFold filename lines).found_correct_comment = false
    · rw [if_pos hf] at hl
      rcases List.mem_cons.mp hl with hban | hmem
      · rw [hban]
        refine Or.inl ?_
        have hnl : ∀ a ∈ [nlc], isPyWs a = true := by
          intro a ha
          simp only [List.mem_singleton] at ha
          rw [ha]
          decide
        rw [pyStrip_ws_right hnl (correctComment filename)]
        exact hb
      · exact hmain l hmem
    · rw [if_neg hf] at hl
      exact hmain l hl

/--
C9 witness: a concrete run confirming both conjuncts at `filename = "f.py"` with a line
carrying a string-literal `#`.
-/
theorem C9_hash_always_comment_witness :
    pyStrip (correctComment (str ("f.py"))) = correctComment (str ("f.py"))
    ∧ (∀ (lines : List Str) (l : Str),
        l ∈ (process_file_lines (str ("f.py")) lines).1 →
        pyStrip l = correctComment (str ("f.py")) ∨ l.any (· == hashc) = false) :=
  ⟨by decide, (C9_hash_always_comment (str ("f.py")) (by decide)).2⟩

/-! ### Line-shape lemmas for the write/read round trip of `process_file` -/

/-- A newline-terminated line with no interior newline. -/
def TermLine (l : Str) : Prop := ∃ body, l = body ++ [nlc] ∧ nlc ∉ body

/-- A nonempty line with no interior newline (the shape of a final line). -/
def LastLine (l : Str) : Prop := l ≠ [] ∧ nlc ∉ l.dropLast

/-- The shape of any `readlines` result: all lines terminated except possibly the last. -/
def GoodLines (L : List Str) : Prop :=
  (∀ l ∈ L.dropLast, TermLine l) ∧ (L = [] ∨ LastLine (L.getLastD []))

def NoHash (L : List Str) : Prop := ∀ l ∈ L, l.any (· == hashc) = false

theorem TermLine.lastLine {l : Str} (h : TermLine l) : LastLine l := by
  obtain ⟨body, hb, hnl⟩ := h
  refine ⟨by simp [hb], ?_⟩
  rw [hb, List.dropLast_concat]
  exact hnl

theorem goodLines_cons_of_term {l : Str} {L : List Str}
    (hl : TermLine l) (hL : GoodLines L) : GoodLines (l :: L) := by
  obtain ⟨hterm, hlast⟩ := hL
  cases L with
  | nil =>
    exact ⟨by simp, Or.inr (by simpa using hl.lastLine)⟩
  | cons m rest =>
    refine ⟨?_, ?_⟩
    · intro x hx
      rw [List.dropLast_cons₂, List.mem_cons] at hx
      rcases hx with hx | hx
      · rw [hx]; exact hl
      · exact hterm x hx
    · rcases hlast with hnil | hlast
      · exact absurd hnil (by simp)
      · exact Or.inr (by simpa using hlast)

theorem goodLines_of_cons {l : Str} {L : List Str}
    (h : GoodLines (l :: L)) (hne : L ≠ []) : GoodLines L := by
  obtain ⟨hterm, hlast⟩ := h
  obtain ⟨m, rest, hm⟩ := List.exists_cons_of_ne_nil hne
  subst hm
  refine ⟨?_, ?_⟩
  · intro x hx
    exact hterm x (by rw [List.dropLast_cons₂, List.mem_cons]; exact Or.inr hx)
  · rcases hlast with hnil | hlast
    · exact absurd hnil (by simp)
    · exact Or.inr (by simpa using hlast)

theorem termLine_of_cons_head {l : Str} {L : List Str}
    (h : GoodLines (l :: L)) (hne : L ≠ []) : TermLine l := by
  obtain ⟨m, rest, hm⟩ := List.exists_cons_of_ne_nil hne
  subst hm
  exact h.1 l (by rw [List.dropLast_cons₂]; exact List.mem_cons_self l _)

theorem splitLines_cons_ne {c : Char} {cs : Str} (hc : ¬ (c = nlc)) :
    splitLinesKeepEnds (c :: cs)
      = match splitLinesKeepEnds cs with
        | [] => [[c]]
        | h :: t => (c :: h) :: t := by
  simp [splitLinesKeepEnds, hc]

/-- Splitting after appending one terminated line peels that line off. -/
theorem splitLines_term_prefix {body : Str} (hnl : nlc ∉ body) (s : Str) :
    splitLinesKeepEnds (body ++ nlc :: s) = (body ++ [nlc]) :: splitLinesKeepEnds s := by
  induction body with
  | nil => simp [splitLinesKeepEnds]
  | cons c t ih =>
    have hc : ¬ (c = nlc) := by
      intro hcon
      exact hnl (by rw [hcon]; exact List.mem_cons_self _ _)
    have hrec := ih (fun hm => hnl (List.mem_cons_of_mem c hm))
    rw [List.cons_append, splitLines_cons_ne hc, hrec]
    simp

theorem splitLines_single {l : Str} (h : LastLine l) : splitLinesKeepEnds l = [l] := by
  obtain ⟨hne, hnl⟩ := h
  induction l with
  | nil => exact absurd rfl hne
  | cons c t ih =>
    cases t with
    | nil =>
      by_cases hc : c = nlc
      · rw [hc]; rfl
      · simp [splitLinesKeepEnds, hc]
    | cons d u =>
      have hc : ¬ (c = nlc) := by
        intro hcon
        apply hnl
        rw [List.dropLast_cons₂, hcon]
        exact List.mem_cons_self _ _
      have ht : d :: u ≠ [] := by simp
      have htl : nlc ∉ (d :: u).dropLast := by
        intro hm
        apply hnl
        rw [List.dropLast_cons₂, List.mem_cons]
        exact Or.inr hm
      have hrec := ih (by simp) htl
      rw [splitLines_cons_ne hc, hrec]

/-- Writing the modified lines and reading them back recovers the same lines. -/
theorem splitLines_flatten {L : List Str} (h : GoodLines L) :
    splitLinesKeepEnds L.flatten = L := by
  induction L with
  | nil => rfl
  | cons l rest ih =>
    by_cases hrest : rest = []
    · subst hrest
      have hl : LastLine l := by
        rcases h.2 with hnil | hlast
        · exact absurd hnil (by simp)
        · simpa using hlast
      simp only [List.flatten_cons, List.flatten_nil, List.append_nil]
      exact splitLines_single hl
    · obtain ⟨body, hb, hnl⟩ := termLine_of_cons_head h hrest
      have hflat : (l :: rest).flatten = body ++ nlc :: rest.flatten := by
        simp [List.flatten_cons, hb]
      rw [hflat, splitLines_term_prefix hnl, ← hb, ih (goodLines_of_cons h hrest)]

theorem mem_of_mem_pyStrip {a : Char} {s : Str} (h : a ∈ pyStrip s) : a ∈ s := by
  unfold pyStrip pyLstrip at h
  exact mem_of_mem_dropWhile (mem_of_mem_pyRstrip h)

theorem eq_cons_of_leadsWith_single {c : Char} {s : Str} (h : leadsWith [c] s = true) :
    ∃ t, s = c :: t := by
  cases s with
  | nil => simp [leadsWith] at h
  | cons d t =>
    refine ⟨t, ?_⟩
    simp only [leadsWith, Bool.and_eq_true, beq_iff_eq] at h
    rw [h.1]

/-- A line with no `#` falls through to the final `else` and is kept verbatim. -/
theorem repairLine_nohash (filename : Str) (st : RepairState) {l : Str}
    (hl : l.any (· == hashc) = false) :
    repairLine (correctComment filename) st l
      = { st with modified_lines := st.modified_lines ++ [l] } := by
  have hmem : hashc ∉ l := by
    intro hm
    rw [List.any_eq_false] at hl
    exact hl hashc hm (by simp)
  have h1 : ¬ (pyStrip l = correctComment filename) := by
    intro hcon
    apply hmem
    apply mem_of_mem_pyStrip (s := l)
    rw [hcon]
    simp [correctComment]
  have h2 : ¬ (leadsWith [hashc] (pyStrip l) = true) := by
    intro hcon
    obtain ⟨t, ht⟩ := eq_cons_of_leadsWith_single hcon
    apply hmem
    apply mem_of_mem_pyStrip (s := l)
    rw [ht]
    exact List.mem_cons_self _ _
  have h3 : ¬ (l.any (· == hashc) = true) := by rw [hl]; simp
  simp only [repairLine, if_neg h1, if_neg h2, if_neg h3]

theorem foldl_repair_nohash (filename : Str) (L : List Str) (st : RepairState)
    (h : NoHash L) :
    List.foldl (repairLine (correctComment filename)) st L
      = { st with modified_lines := st.modified_lines ++ L } := by
  induction L generalizing st with
  | nil => simp
  | cons l rest ih =>
    rw [List.foldl_cons, repairLine_nohash filename st (h l (List.mem_cons_self _ _)),
      ih _ (fun x hx => h x (List.mem_cons_of_mem _ hx))]
    simp

/-- The modified lines hold exactly one banner line, surrounded by hash-free lines. -/
def BannerSplit (filename : Str) (L : List Str) : Prop :=
  ∃ pre b post, L = pre ++ b :: post ∧ NoHash pre
    ∧ pyStrip b = correctComment filename ∧ NoHash post

theorem noHash_append_single {L : List Str} {e : Str}
    (h : NoHash L) (he : e.any (· == hashc) = false) : NoHash (L ++ [e]) := by
  intro x hx
  rw [List.mem_append] at hx
  rcases hx with hx | hx
  · exact h x hx
  · simp only [List.mem_singleton] at hx
    rw [hx]
    exact he

theorem bannerSplit_append {filename : Str} {L : List Str} {e : Str}
    (h : BannerSplit filename L) (he : e.any (· == hashc) = false) :
    BannerSplit filename (L ++ [e]) := by
  obtain ⟨pre, b, post, hL, hpre, hb, hpost⟩ := h
  exact ⟨pre, b, post ++ [e], by rw [hL]; simp, hpre, hb, noHash_append_single hpost he⟩

theorem dropLast_append_cons (u : Str) (a : Char) (v : Str) :
    (u ++ a :: v).dropLast = u ++ (a :: v).dropLast := by
  induction u with
  | nil => rfl
  | cons c t ih =>
    have hne : t ++ a :: v ≠ [] := by simp
    rw [List.cons_append, List.dropLast_cons_of_ne_nil hne, ih, List.cons_append]

/-- On a line with no interior newline, the code part before the first `#` has no
newline either. -/
theorem nl_not_mem_code {l : Str} (hdl : nlc ∉ l.dropLast)
    (hany : l.any (· == hashc) = true) :
    nlc ∉ l.takeWhile (· != hashc) := by
  intro hm
  obtain ⟨t, ht⟩ := dropWhile_ne_of_any hany
  have hsplit : l = l.takeWhile (· != hashc) ++ hashc :: t := by
    rw [← ht]
    exact (List.takeWhile_append_dropWhile (· != hashc) l).symm
  apply hdl
  rw [hsplit, dropLast_append_cons]
  exact List.mem_append_left _ hm

/-- The truncated replacement of an in-line-comment line contains no `#`. -/
theorem truncated_nohash (l : Str) :
    (pyRstrip (l.takeWhile (· != hashc)) ++ [nlc]).any (· == hashc) = false := by
  rw [List.any_eq_false]
  intro a ha
  rw [List.mem_append] at ha
  rcases ha with ha | ha
  · have := takeWhile_mem_pred (mem_of_mem_pyRstrip ha)
    simpa [beq_iff_eq] using this
  · simp only [List.mem_singleton] at ha
    rw [ha]
    simp [beq_iff_eq, nlc, hashc]

/-- Case analysis of one `repairLine` step as seen by the modified lines and the
found flag; the in-line branch with blank code is unreachable. -/
theorem repairLine_ml_cases (filename : Str) (st : RepairState) (l : Str) :
    ((repairLine (correctComment filename) st l).modified_lines = st.modified_lines
      ∧ (repairLine (correctComment filename) st l).found_correct_comment
          = st.found_correct_comment)
    ∨ ((repairLine (correctComment filename) st l).modified_lines
          = st.modified_lines ++ [l]
        ∧ pyStrip l = correctComment filename
        ∧ st.found_correct_comment = false
        ∧ (repairLine (correctComment filename) st l).found_correct_comment = true)
    ∨ ((repairLine (correctComment filename) st l).modified_lines
          = st.modified_lines ++ [l]
        ∧ l.any (· == hashc) = false
        ∧ (repairLine (correctComment filename) st l).found_correct_comment
            = st.found_correct_comment)
    ∨ ((repairLine (correctComment filename) st l).modified_lines
          = st.modified_lines ++ [pyRstrip (l.takeWhile (· != hashc)) ++ [nlc]]
        ∧ l.any (· == hashc) = true
        ∧ (repairLine (correctComment filename) st l).found_correct_comment
            = st.found_correct_comment) := by
  by_cases hc1 : pyStrip l = correctComment filename
  · by_cases hf : st.found_correct_comment = false
    · refine Or.inr (Or.inl ⟨?_, hc1, hf, ?_⟩)
      · simp [repairLine, if_pos hc1, if_pos hf]
      · simp [repairLine, if_pos hc1, if_pos hf]
    · exact Or.inl ⟨by simp [repairLine, if_pos hc1, if_neg hf],
        by simp [repairLine, if_pos hc1, if_neg hf]⟩
  · by_cases hc2 : leadsWith [hashc] (pyStrip l) = true
    · exact Or.inl ⟨by simp [repairLine, if_neg hc1, if_pos hc2],
        by simp [repairLine, if_neg hc1, if_pos hc2]⟩
    · by_cases hc3 : l.any (· == hashc) = true
      · by_cases hc4 : pyStrip (l.takeWhile (· != hashc)) = []
        · exfalso
          apply hc2
          obtain ⟨t, ht⟩ := dropWhile_ne_of_any hc3
          have hall : ∀ a ∈ l.takeWhile (· != hashc), isPyWs a = true :=
            all_ws_of_pyStrip_nil hc4
          have hline : l = l.takeWhile (· != hashc) ++ (hashc :: t) := by
            rw [← ht]
            exact (List.takeWhile_append_dropWhile (· != hashc) l).symm
          rw [hline, pyStrip_ws_left hall, pyStrip_cons_of_not_ws (by decide)]
          simp [leadsWith]
        · have hml : (repairLine (correctComment filename) st l).modified_lines
              = st.modified_lines ++ [pyRstrip (l.takeWhile (· != hashc)) ++ [nlc]] := by
            simp only [repairLine]
            rw [if_neg hc1, if_neg hc2, if_pos hc3, if_pos hc4]
          have hfd : (repairLine (correctComment filename) st l).found_correct_comment
              = st.found_correct_comment := by
            simp only [repairLine]
            rw [if_neg hc1, if_neg hc2, if_pos hc3, if_pos hc4]
          exact Or.inr (Or.inr (Or.inr ⟨hml, hc3, hfd⟩))
      · have hfalse : l.any (· == hashc) = false := by
          cases hx : l.any (· == hashc)
          · rfl
          · exact absurd hx hc3
        have hml : (repairLine (correctComment filename) st l).modified_lines
            = st.modified_lines ++ [l] := by
          simp only [repairLine]
          rw [if_neg hc1, if_neg hc2, if_neg hc3]
        have hfd : (repairLine (correctComment filename) st l).found_correct_comment
            = st.found_correct_comment := by
          simp only [repairLine]
          rw [if_neg hc1, if_neg hc2, if_neg hc3]
        exact Or.inr (Or.inr (Or.inl ⟨hml, hfalse, hfd⟩))

theorem getLastD_mem_of_ne_nil {L : List Str} (h : L ≠ []) : L.getLastD [] ∈ L := by
  induction L with
  | nil => exact absurd rfl h
  | cons m rest ih =>
    by_cases hrest : rest = []
    · subst hrest
      simp [List.getLastD]
    · have hstep : (m :: rest).getLastD [] = rest.getLastD [] := by
        obtain ⟨x, u, hx⟩ := List.exists_cons_of_ne_nil hrest
        subst hx
        rfl
      rw [hstep]
      exact List.mem_cons_of_mem m (ih hrest)

theorem goodLines_of_term {L : List Str} (h : ∀ l ∈ L, TermLine l) : GoodLines L := by
  refine ⟨fun l hl => h l ((List.dropLast_sublist (l := L)).mem hl), ?_⟩
  cases hL : L with
  | nil => exact Or.inl rfl
  | cons m rest =>
    refine Or.inr ?_
    have hmem : (m :: rest).getLastD [] ∈ m :: rest :=
      getLastD_mem_of_ne_nil (by simp)
    exact (h _ (hL ▸ hmem)).lastLine

theorem goodLines_append_single {L : List Str} {e : Str}
    (hL : ∀ l ∈ L, TermLine l) (he : LastLine e) : GoodLines (L ++ [e]) := by
  refine ⟨?_, Or.inr ?_⟩
  · intro l hl
    rw [List.dropLast_concat] at hl
    exact hL l hl
  · have : (L ++ [e]).getLastD [] = e := by
      rw [List.getLastD_eq_getLast?, List.getLast?_concat]
      rfl
    rw [this]
    exact he

theorem shape_step_append (filename : Str) {st st' : RepairState} {e : Str}
    (hml : st'.modified_lines = st.modified_lines ++ [e])
    (hfd : st'.found_correct_comment = st.found_correct_comment)
    (he : e.any (· == hashc) = false)
    (hf : st.found_correct_comment = false → NoHash st.modified_lines)
    (hft : st.found_correct_comment = true → BannerSplit filename st.modified_lines) :
    (st'.found_correct_comment = false → NoHash st'.modified_lines)
    ∧ (st'.found_correct_comment = true → BannerSplit filename st'.modified_lines) := by
  constructor
  · intro h
    rw [hfd] at h
    rw [hml]
    exact noHash_append_single (hf h) he
  · intro h
    rw [hfd] at h
    rw [hml]
    exact bannerSplit_append (hft h) he

theorem shape_step_banner (filename : Str) {st st' : RepairState} {l : Str}
    (hml : st'.modified_lines = st.modified_lines ++ [l])
    (hstrip : pyStrip l = correctComment filename)
    (hsf : st.found_correct_comment = false)
    (hfd : st'.found_correct_comment = true)
    (hf : st.found_correct_comment = false → NoHash st.modified_lines) :
    (st'.found_correct_comment = false → NoHash st'.modified_lines)
    ∧ (st'.found_correct_comment = true → BannerSplit filename st'.modified_lines) := by
  constructor
  · intro h
    rw [hfd] at h
    exact absurd h (by simp)
  · intro _
    refine ⟨st.modified_lines, l, [], by rw [hml], hf hsf, hstrip, ?_⟩
    intro x hx
    simp at hx

/-- Master shape lemma for the repair loop: starting from newline-terminated kept lines,
the loop output is well-shaped, and its lines are hash-free apart from one banner line
present exactly when the found flag is set. -/
theorem foldl_repair_shape (filename : Str) (lines : List Str) (st : RepairState)
    (hgood : GoodLines lines)
    (hterm : ∀ l ∈ st.modified_lines, TermLine l)
    (hf : st.found_correct_comment = false → NoHash st.modified_lines)
    (hft : st.found_correct_comment = true → BannerSplit filename st.modified_lines) :
    GoodLines (List.foldl (repairLine (correctComment filename)) st lines).modified_lines
    ∧ ((List.foldl (repairLine (correctComment filename)) st lines).found_correct_comment
          = false
        → NoHash (List.foldl (repairLine (correctComment filename)) st lines).modified_lines)
    ∧ ((List.foldl (repairLine (correctComment filename)) st lines).found_correct_comment
          = true
        → BannerSplit filename
            (List.foldl (repairLine (correctComment filename)) st lines).modified_lines) := by
  induction lines generalizing st with
  | nil => exact ⟨goodLines_of_term hterm, hf, hft⟩
  | cons l rest ih =>
    rw [List.foldl_cons]
    by_cases hrest : rest = []
    · -- the line `l` is the last input line and may lack a trailing newline
      subst hrest
      have hlast : LastLine l := by
        rcases hgood.2 with hnil | hl
        · exact absurd hnil (by simp)
        · simpa using hl
      simp only [List.foldl_nil]
      rcases repairLine_ml_cases filename st l with
        ⟨hml, hfd⟩ | ⟨hml, hstrip, hsf, hfd⟩ | ⟨hml, hnh, hfd⟩ | ⟨hml, hany, hfd⟩
      · refine ⟨by rw [hml]; exact goodLines_of_term hterm, ?_, ?_⟩
        · intro h
          rw [hfd] at h
          rw [hml]
          exact hf h
        · intro h
          rw [hfd] at h
          rw [hml]
          exact hft h
      · obtain ⟨ha, hb2⟩ := shape_step_banner filename hml hstrip hsf hfd hf
        exact ⟨by rw [hml]; exact goodLines_append_single hterm hlast, ha, hb2⟩
      · obtain ⟨ha, hb2⟩ := shape_step_append filename hml hfd hnh hf hft
        exact ⟨by rw [hml]; exact goodLines_append_single hterm hlast, ha, hb2⟩
      · have hterme : TermLine (pyRstrip (l.takeWhile (· != hashc)) ++ [nlc]) := by
          refine ⟨pyRstrip (l.takeWhile (· != hashc)), rfl, ?_⟩
          intro hm
          exact nl_not_mem_code hlast.2 hany (mem_of_mem_pyRstrip hm)
        obtain ⟨ha, hb2⟩ := shape_step_append filename hml hfd (truncated_nohash l) hf hft
        exact ⟨by rw [hml]; exact goodLines_append_single hterm hterme.lastLine, ha, hb2⟩
    · -- the line `l` is newline-terminated; keep folding
      have hterml : TermLine l := termLine_of_cons_head hgood hrest
      have hgoodr : GoodLines rest := goodLines_of_cons hgood hrest
      rcases repairLine_ml_cases filename st l with
        ⟨hml, hfd⟩ | ⟨hml, hstrip, hsf, hfd⟩ | ⟨hml, hnh, hfd⟩ | ⟨hml, hany, hfd⟩
      · refine ih _ hgoodr (by rw [hml]; exact hterm) ?_ ?_
        · intro h
          rw [hfd] at h
          rw [hml]
          exact hf h
        · intro h
          rw [hfd] at h
          rw [hml]
          exact hft h
      · obtain ⟨ha, hb2⟩ := shape_step_banner filename hml hstrip hsf hfd hf
        refine ih _ hgoodr ?_ ha hb2
        rw [hml]
        intro x hx
        rw [List.mem_append] at hx
        rcases hx with hx | hx
        · exact hterm x hx
        · simp only [List.mem_singleton] at hx
          rw [hx]
          exact hterml
      · obtain ⟨ha, hb2⟩ := shape_step_append filename hml hfd hnh hf hft
        refine ih _ hgoodr ?_ ha hb2
        rw [hml]
        intro x hx
        rw [List.mem_append] at hx
        rcases hx with hx | hx
        · exact hterm x hx
        · simp only [List.mem_singleton] at hx
          rw [hx]
          exact hterml
      · have hterme : TermLine (pyRstrip (l.takeWhile (· != hashc)) ++ [nlc]) := by
          refine ⟨pyRstrip (l.takeWhile (· != hashc)), rfl, ?_⟩
          intro hm
          exact nl_not_mem_code hterml.lastLine.2 hany (mem_of_mem_pyRstrip hm)
        obtain ⟨ha, hb2⟩ := shape_step_append filename hml hfd (truncated_nohash l) hf hft
        refine ih _ hgoodr ?_ ha hb2
        rw [hml]
        intro x hx
        rw [List.mem_append] at hx
        rcases hx with hx | hx
        · exact hterm x hx
        · simp only [List.mem_singleton] at hx
          rw [hx]
          exact hterme

theorem goodLines_cons_prepend {c : Char} {h : Str} {t : List Str}
    (hc : ¬ (c = nlc)) (hg : GoodLines (h :: t)) : GoodLines ((c :: h) :: t) := by
  by_cases ht : t = []
  · subst ht
    have hl : LastLine h := by
      rcases hg.2 with hnil | hl
      · exact absurd hnil (by simp)
      · simpa using hl
    refine ⟨by simp, Or.inr ?_⟩
    have hgl : ([c :: h] : List Str).getLastD [] = c :: h := rfl
    rw [hgl]
    refine ⟨by simp, ?_⟩
    rw [List.dropLast_cons_of_ne_nil hl.1]
    intro hm
    rcases List.mem_cons.mp hm with hm | hm
    · exact hc hm.symm
    · exact hl.2 hm
  · have hth : TermLine h := termLine_of_cons_head hg ht
    obtain ⟨body, hbody, hnlb⟩ := hth
    have hterm : TermLine (c :: h) := by
      refine ⟨c :: body, by rw [hbody]; rfl, ?_⟩
      intro hm
      rcases List.mem_cons.mp hm with hm | hm
      · exact hc hm.symm
      · exact hnlb hm
    exact goodLines_cons_of_term hterm (goodLines_of_cons hg ht)

theorem splitLines_good (content : Str) : GoodLines (splitLinesKeepEnds content) := by
  induction content with
  | nil => exact ⟨by simp [splitLinesKeepEnds], Or.inl rfl⟩
  | cons c cs ih =>
    by_cases hc : c = nlc
    · subst hc
      have hstep : splitLinesKeepEnds (nlc :: cs) = [nlc] :: splitLinesKeepEnds cs := by
        simp [splitLinesKeepEnds]
      rw [hstep]
      exact goodLines_cons_of_term ⟨[], rfl, by simp⟩ ih
    · rw [splitLines_cons_ne hc]
      cases hsplit : splitLinesKeepEnds cs with
      | nil => exact ⟨by simp, Or.inr ⟨by simp, by simp⟩⟩
      | cons h t =>
        rw [hsplit] at ih
        exact goodLines_cons_prepend hc ih

/-- A run of `process_file` that sets the modified flag produces well-shaped lines with
exactly one banner line among hash-free lines. -/
theorem process_file_lines_output_shape (filename content : Str)
    (hb : pyStrip (correctComment filename) = correctComment filename)
    (hnl : nlc ∉ filename) :
    GoodLines (process_file_lines filename (splitLinesKeepEnds content)).1
    ∧ BannerSplit filename (process_file_lines filename (splitLinesKeepEnds content)).1 := by
  have hmain := foldl_repair_shape filename (splitLinesKeepEnds content) ⟨[], false, 0, 0, 0⟩
    (splitLines_good content) (by intro x hx; simp at hx)
    (by intro _ x hx; simp at hx) (by intro hcon; simp at hcon)
  obtain ⟨hg, hf, hft⟩ := hmain
  simp only [process_file_lines]
  by_cases hfound : (repairFold filename (splitLinesKeepEnds content)).found_correct_comment
      = false
  · rw [if_pos hfound]
    have hbt : TermLine (correctComment filename ++ [nlc]) := by
      refine ⟨correctComment filename, rfl, ?_⟩
      intro hm
      unfold correctComment at hm
      rcases List.mem_append.mp hm with hm | hm
      · simp only [List.mem_cons, List.mem_singleton] at hm
        rcases hm with hm | hm | hm
        · exact absurd hm (by decide)
        · exact absurd hm (by decide)
        · simp at hm
      · exact hnl hm
    have hstr : pyStrip (correctComment filename ++ [nlc]) = correctComment filename := by
      have hw : ∀ a ∈ [nlc], isPyWs a = true := by
        intro a ha
        simp only [List.mem_singleton] at ha
        rw [ha]
        decide
      rw [pyStrip_ws_right hw, hb]
    constructor
    · exact goodLines_cons_of_term hbt hg
    · exact ⟨[], correctComment filename ++ [nlc],
        (repairFold filename (splitLinesKeepEnds content)).modified_lines, rfl,
        by intro x hx; simp at hx, hstr, hf hfound⟩
  · rw [if_neg hfound]
    have htrue : (repairFold filename (splitLinesKeepEnds content)).found_correct_comment
        = true := by
      cases hx : (repairFold filename (splitLinesKeepEnds content)).found_correct_comment
      · exact absurd hx hfound
      · rfl
    exact ⟨hg, hft htrue⟩

/-- Running the repair loop over an already-normalized line list changes nothing and
counts nothing. -/
theorem process_file_lines_of_bannerSplit (filename : Str) (L : List Str)
    (h : BannerSplit filename L) :
    process_file_lines filename L = (L, false) := by
  obtain ⟨pre, b, post, hL, hpre, hbs, hpost⟩ := h
  have hfold : repairFold filename L = ⟨pre ++ b :: post, true, 0, 0, 0⟩ := by
    unfold repairFold
    rw [hL, List.foldl_append, foldl_repair_nohash filename pre _ hpre, List.foldl_cons]
    have hinit : ({ (⟨[], false, 0, 0, 0⟩ : RepairState) with
        modified_lines := ([] : List Str) ++ pre }) = (⟨pre, false, 0, 0, 0⟩ : RepairState) := by
      simp
    rw [hinit]
    have hb1 : repairLine (correctComment filename) ⟨pre, false, 0, 0, 0⟩ b
        = ⟨pre ++ [b], true, 0, 0, 0⟩ := by
      simp only [repairLine]
      rw [if_pos hbs]
      simp
    rw [hb1, foldl_repair_nohash filename post _ hpost]
    simp
  simp only [process_file_lines, hfold]
  rw [if_neg (by simp)]
  simp [hL]

/--
C8 (amended): running the per-file transformation twice equals running it once.  The
second run reports no changes and does not rewrite the file.  When the first run rewrites
the file, every line of the rewritten file either strip-equals the banner comment or
contains no `#`; when the first run reports no changes the file (which may keep a bare
`#` carrying no comment text) is left untouched, so the second run sees the same input
and again reports no changes.
-/
theorem C8_normalizer_idempotent (filename content : Str)
    (hb : pyStrip (correctComment filename) = correctComment filename)
    (hnl : nlc ∉ filename) :
    process_file_content filename (process_file_content filename content).1
      = ((process_file_content filename content).1, false)
    ∧ ((process_file_content filename content).2 = true →
        ∀ l ∈ splitLinesKeepEnds (process_file_content filename content).1,
          pyStrip l = correctComment filename ∨ l.any (· == hashc) = false) := by
  have hrfl1 : process_file_content filename content
      = (if (process_file_lines filename (splitLinesKeepEnds content)).2 = true
          then (process_file_lines filename (splitLinesKeepEnds content)).1.flatten
          else content,
          (process_file_lines filename (splitLinesKeepEnds content)).2) := rfl
  by_cases hm : (process_file_lines filename (splitLinesKeepEnds content)).2 = true
  · obtain ⟨hg, hsplit⟩ := process_file_lines_output_shape filename content hb hnl
    have hout : (process_file_content filename content).1
        = (process_file_lines filename (splitLinesKeepEnds content)).1.flatten := by
      rw [hrfl1, hm]
      simp
    have hread : splitLinesKeepEnds (process_file_content filename content).1
        = (process_file_lines filename (splitLinesKeepEnds content)).1 := by
      rw [hout]
      exact splitLines_flatten hg
    constructor
    · have hrun2 : process_file_lines filename
          (splitLinesKeepEnds (process_file_content filename content).1)
          = ((process_file_lines filename (splitLinesKeepEnds content)).1, false) := by
        rw [hread]
        exact process_file_lines_of_bannerSplit filename _ hsplit
      have hrfl2 : process_file_content filename (process_file_content filename content).1
          = (if (process_file_lines filename
                  (splitLinesKeepEnds (process_file_content filename content).1)).2 = true
              then (process_file_lines filename
                  (splitLinesKeepEnds (process_file_content filename content).1)).1.flatten
              else (process_file_content filename content).1,
              (process_file_lines filename
                (splitLinesKeepEnds (process_file_content filename content).1)).2) := rfl
      rw [hrfl2, hrun2]
      simp
    · intro _ l hl
      rw [hread] at hl
      obtain ⟨pre, b2, post, hLeq, hpre, hbs, hpost⟩ := hsplit
      rw [hLeq] at hl
      rcases List.mem_append.mp hl with hl | hl
      · exact Or.inr (hpre l hl)
      · rcases List.mem_cons.mp hl with hl | hl
        · exact Or.inl (hl ▸ hbs)
        · exact Or.inr (hpost l hl)
  · have hm2 : (process_file_lines filename (splitLinesKeepEnds content)).2 = false := by
      cases hx : (process_file_lines filename (splitLinesKeepEnds content)).2
      · rfl
      · exact absurd hx hm
    have hout : process_file_content filename content = (content, false) := by
      rw [hrfl1, hm2]
      simp
    constructor
    · rw [hout]
      show process_file_content filename content = (content, false)
      exact hout
    · intro hcon
      rw [hout] at hcon
      exact absurd hcon (by simp)

/--
C8 witness: the amended idempotence theorem applied to a concrete file containing a
standalone comment, an in-line comment and no banner.
-/
theorem C8_normalizer_idempotent_witness :
    process_file_content (str ("f.py"))
        (process_file_content (str ("f.py")) (str ("# note\nx = 1  # inline\ny = 2\n"))).1
      = ((process_file_content (str ("f.py")) (str ("# note\nx = 1  # inline\ny = 2\n"))).1,
          false) :=
  (C8_normalizer_idempotent (str ("f.py")) (str ("# note\nx = 1  # inline\ny = 2\n"))
    (by decide) (by decide)).1

/--
C8 (counterexample): the claim asserts that after the first run the file contains exactly
one banner comment and no other comments.  On the file `"# f.py\nx = 1 #\n"` the first
run truncates the bare `#` only in memory, counts no removal (the comment part is empty),
reports no changes, and does not rewrite the file; the surviving file keeps the line
`"x = 1 #\n"`, which contains `#` and is not the banner.
-/
theorem C8_normalizer_counterexample :
    (process_file_content (str ("f.py")) (str ("# f.py\nx = 1 #\n"))).1
        = str ("# f.py\nx = 1 #\n")
    ∧ (process_file_content (str ("f.py")) (str ("# f.py\nx = 1 #\n"))).2 = false
    ∧ str ("x = 1 #\n")
        ∈ splitLinesKeepEnds (process_file_content (str ("f.py")) (str ("# f.py\nx = 1 #\n"))).1
    ∧ (str ("x = 1 #\n")).any (· == hashc) = true
    ∧ pyStrip (str ("x = 1 #\n")) ≠ correctComment (str ("f.py")) := by
  decide

/-! ## copyscripts.py, the exporter

Paths are lists of components relative to the current working directory: `[]` denotes the
working directory, `[scripts]` its `scripts` subdirectory.  The filesystem enumeration of
`os.walk` is abstracted as the list of `(root, file)` pairs the walk yields (in walk
order, after subdirectory pruning); the per-file filters of `collect_files` are applied
to that list exactly as in the source.  Reading a file is a partial map from paths to raw
content; text-mode reading applies universal-newline translation.
-/

def dotc : Char := '.'

abbrev PyPath := List Str

abbrev ReadFS := PyPath → Option Str

def basenameOf (p : PyPath) : Str := p.getLastD []

/-- Universal-newline translation of Python text-mode reads:
both `\r\n` and lone `\r` become `\n`. -/
def normNewlines : Str → Str
  | [] => []
  | [c] => if c = Char.ofNat 13 then [nlc] else [c]
  | c :: d :: rest =>
    if c = Char.ofNat 13 then
      if d = nlc then nlc :: normNewlines rest
      else nlc :: normNewlines (d :: rest)
    else c :: normNewlines (d :: rest)

/-- `read_file_contents` of copyscripts.py: file content on success, a fixed placeholder
string after printing an error message on failure. -/
def read_file_contents (fs : ReadFS) (p : PyPath) : Str :=
  match fs p with
  | some raw => normNewlines raw
  | none => str ("[Error reading file]")

/-- The 34-equals delimiter line hard-coded in copyscripts.py `generate_output`. -/
def copyDelim : Str := str ("==================================")

def copyHeaderText : Str :=
  str ("I") ++ [aposc] ++
    str ("ve listed all the scripts in this project below. Please provide a complete fix for the error shown. If any scripts need modification, provide me with the complete, untruncated, working revision, without any placeholders or missing code or example code or hypothetical code. Everything you provide must be fully working, error-free and production-ready.")

/-- The `header` string of `generate_output`, delimiter included. -/
def copyHeader : Str := copyHeaderText ++ str ("\n\n") ++ copyDelim ++ str ("\n\n")

/-- The `os.path.commonpath([path, scripts_dir]) == scripts_dir` test: the path lies
strictly under the `scripts` subdirectory. -/
def locInScripts (p : PyPath) : Bool :=
  p.head? == some (str ("scripts")) && decide (2 ≤ p.length)

def locationStr (p : PyPath) : Str :=
  if locInScripts p then
    str ("located in the ") ++ [aposc] ++ str ("scripts") ++ [aposc] ++ str (" subdirectory")
  else str ("located in the working directory")

def natStr (n : Nat) : Str := (Nat.repr n).data

/-- One numbered section of the Export Document:
`f"{idx}) {basename} ({location}):\n\n{contents}\n\n{delimiter}\n\n"`. -/
def renderSection (fs : ReadFS) (idx : Nat) (p : PyPath) : Str :=
  natStr idx ++ str (") ") ++ basenameOf p ++ str (" (") ++ locationStr p ++ str ("):")
    ++ str ("\n\n") ++ read_file_contents fs p ++ str ("\n\n") ++ copyDelim ++ str ("\n\n")

def exportSections (fs : ReadFS) (collected_files : List (Str × PyPath)) : List Str :=
  (List.enumFrom 1 collected_files).map (fun pr => renderSection fs pr.1 pr.2.2)

/-- `generate_output` of copyscripts.py: the fixed header followed by one section per
collected file, numbered from 1 in collection order. -/
def generate_output (fs : ReadFS) (collected_files : List (Str × PyPath)) : Str :=
  copyHeader ++ (exportSections fs collected_files).flatten

/-- The per-file filters of `collect_files`: skip hidden files, skip excluded names,
keep matching extensions (all case-insensitive as in the source). -/
def keepFile (extensions excluded : List Str) (file : Str) : Bool :=
  !(leadsWith [dotc] file) && !(excluded.contains (toLowerStr file))
    && (extensions.any (fun ext => trailsWith (toLowerStr ext) (toLowerStr file)))

/-- `filename_map[file.lower()].append(full_path)` on an association list that keeps
insertion order, as a `defaultdict(list)` does. -/
def addToMap (m : List (Str × List PyPath)) (key : Str) (p : PyPath) :
    List (Str × List PyPath) :=
  match m with
  | [] => [(key, [p])]
  | (k, ps) :: rest =>
    if k = key then (k, ps ++ [p]) :: rest else (k, ps) :: addToMap rest key p

/-- `collect_files` over the abstracted walk: group kept files by lowercased name. -/
def collect_files (walk : List (PyPath × Str)) (extensions excluded : List Str) :
    List (Str × List PyPath) :=
  walk.foldl
    (fun m pr =>
      if keepFile extensions excluded pr.2 then addToMap m (toLowerStr pr.2) (pr.1 ++ [pr.2])
      else m)
    []

/-- The `__main__` deduplication: delete every filename with more than one path. -/
def dedupe (m : List (Str × List PyPath)) : List (Str × List PyPath) :=
  m.filter (fun e => !(decide (2 ≤ e.2.length)))

/-- `unique_files`: the surviving `(fname, paths[0])` pairs. -/
def unique_files (m : List (Str × List PyPath)) : List (Str × PyPath) :=
  (dedupe m).map (fun e => (e.1, e.2.headD []))

theorem basename_concat (root : PyPath) (f : Str) : basenameOf (root ++ [f]) = f := by
  unfold basenameOf
  rw [List.getLastD_eq_getLast?, List.getLast?_concat]
  rfl

/-- Entries of the collected map: nonempty path lists whose every path ends in a file
whose lowercased name is the key. -/
def MapInv (e : Str × List PyPath) : Prop :=
  e.2 ≠ [] ∧ ∀ p ∈ e.2, toLowerStr (basenameOf p) = e.1

theorem addToMap_inv {m : List (Str × List PyPath)} {key : Str} {p : PyPath}
    (hm : ∀ e ∈ m, MapInv e) (hp : toLowerStr (basenameOf p) = key) :
    ∀ e ∈ addToMap m key p, MapInv e := by
  induction m with
  | nil =>
    intro e he
    simp only [addToMap, List.mem_singleton] at he
    rw [he]
    refine ⟨by simp, ?_⟩
    intro q hq
    simp only [List.mem_singleton] at hq
    rw [hq]
    exact hp
  | cons a rest ih =>
    intro e he
    obtain ⟨k, ps⟩ := a
    by_cases hk : k = key
    · simp only [addToMap, if_pos hk] at he
      rcases List.mem_cons.mp he with he | he
      · rw [he]
        obtain ⟨hne, hall⟩ := hm (k, ps) (List.mem_cons_self _ _)
        refine ⟨by simp, ?_⟩
        intro q hq
        rcases List.mem_append.mp hq with hq | hq
        · exact hall q hq
        · simp only [List.mem_singleton] at hq
          rw [hq, hp, hk]
      · exact hm e (List.mem_cons_of_mem _ he)
    · simp only [addToMap, if_neg hk] at he
      rcases List.mem_cons.mp he with he | he
      · rw [he]
        exact hm (k, ps) (List.mem_cons_self _ _)
      · exact ih (fun x hx => hm x (List.mem_cons_of_mem _ hx)) e he

theorem addToMap_keys {m : List (Str × List PyPath)} {key : Str} {p : PyPath} :
    (addToMap m key p).map Prod.fst = m.map Prod.fst
      ∨ (addToMap m key p).map Prod.fst = m.map Prod.fst ++ [key] := by
  induction m with
  | nil => exact Or.inr (by simp [addToMap])
  | cons a rest ih =>
    obtain ⟨k, ps⟩ := a
    by_cases hk : k = key
    · exact Or.inl (by simp [addToMap, if_pos hk])
    · rcases ih with h | h
      · exact Or.inl (by simp only [addToMap, if_neg hk, List.map_cons, h])
      · refine Or.inr ?_
        simp only [addToMap, if_neg hk, List.map_cons, h]
        rfl

theorem addToMap_keys_nodup {m : List (Str × List PyPath)} {key : Str} {p : PyPath}
    (h : (m.map Prod.fst).Nodup) (hmem : key ∈ m.map Prod.fst → False) :
    ((addToMap m key p).map Prod.fst).Nodup := by
  rcases @addToMap_keys m key p with hk | hk
  · rw [hk]; exact h
  · rw [hk]
    rw [List.nodup_append]
    exact ⟨h, List.nodup_singleton key, by
      intro a ha hb
      simp only [List.mem_singleton] at hb
      rw [hb] at ha
      exact hmem ha⟩

theorem addToMap_keys_mem {m : List (Str × List PyPath)} {key : Str} {p : PyPath}
    (hmem : key ∈ m.map Prod.fst) :
    (addToMap m key p).map Prod.fst = m.map Prod.fst := by
  induction m with
  | nil => simp at hmem
  | cons a rest ih =>
    obtain ⟨k, ps⟩ := a
    by_cases hk : k = key
    · simp [addToMap, if_pos hk]
    · have hmem2 : key ∈ rest.map Prod.fst := by
        rcases List.mem_cons.mp hmem with h | h
        · exact absurd h.symm hk
        · exact h
      simp only [addToMap, if_neg hk, List.map_cons, ih hmem2]

theorem collect_files_nodup_and_inv (walk : List (PyPath × Str))
    (extensions excluded : List Str) :
    ((collect_files walk extensions excluded).map Prod.fst).Nodup
    ∧ ∀ e ∈ collect_files walk extensions excluded, MapInv e := by
  suffices h : ∀ (m : List (Str × List PyPath)),
      (m.map Prod.fst).Nodup → (∀ e ∈ m, MapInv e) →
      ((walk.foldl
          (fun m pr =>
            if keepFile extensions excluded pr.2 then
              addToMap m (toLowerStr pr.2) (pr.1 ++ [pr.2])
            else m)
          m).map Prod.fst).Nodup
      ∧ ∀ e ∈ walk.foldl
          (fun m pr =>
            if keepFile extensions excluded pr.2 then
              addToMap m (toLowerStr pr.2) (pr.1 ++ [pr.2])
            else m)
          m, MapInv e by
    exact h [] (by simp) (by intro e he; simp at he)
  induction walk with
  | nil => exact fun m h1 h2 => ⟨h1, h2⟩
  | cons pr rest ih =>
    intro m h1 h2
    simp only [List.foldl_cons]
    by_cases hkeep : keepFile extensions excluded pr.2 = true
    · rw [if_pos hkeep]
      refine ih _ ?_ ?_
      · by_cases hmem : toLowerStr pr.2 ∈ m.map Prod.fst
        · rw [addToMap_keys_mem hmem]
          exact h1
        · exact addToMap_keys_nodup h1 hmem
      · exact addToMap_inv h2 (by rw [basename_concat])
    · rw [if_neg hkeep]
      exact ih m h1 h2

theorem lookup_mem {m : List (Str × List PyPath)} {key : Str} {v : List PyPath}
    (h : m.lookup key = some v) : (key, v) ∈ m := by
  induction m with
  | nil => simp [List.lookup] at h
  | cons a rest ih =>
    obtain ⟨k, ps⟩ := a
    by_cases hk : key == k
    · simp only [List.lookup, hk] at h
      cases h
      have hkk : key = k := by simpa [beq_iff_eq] using hk
      rw [hkk]
      exact List.mem_cons_self _ _
    · rw [Bool.not_eq_true] at hk
      simp only [List.lookup, hk] at h
      exact List.mem_cons_of_mem _ (ih h)

theorem assoc_unique {m : List (Str × List PyPath)} {k : Str} {v1 v2 : List PyPath}
    (hnd : (m.map Prod.fst).Nodup) (h1 : (k, v1) ∈ m) (h2 : (k, v2) ∈ m) : v1 = v2 := by
  induction m with
  | nil => simp at h1
  | cons a rest ih =>
    rw [List.map_cons, List.nodup_cons] at hnd
    rcases List.mem_cons.mp h1 with h1e | h1m
    · rcases List.mem_cons.mp h2 with h2e | h2m
      · have h12 : ((k, v1) : Str × List PyPath) = (k, v2) := h1e.trans h2e.symm
        exact congrArg Prod.snd h12
      · exfalso
        apply hnd.1
        have hk : a.1 = k := by rw [← h1e]
        rw [hk]
        exact List.mem_map.mpr ⟨(k, v2), h2m, rfl⟩
    · rcases List.mem_cons.mp h2 with h2e | h2m
      · exfalso
        apply hnd.1
        have hk : a.1 = k := by rw [← h2e]
        rw [hk]
        exact List.mem_map.mpr ⟨(k, v1), h1m, rfl⟩
      · exact ih hnd.2 h1m h2m

theorem headD_mem {l : List PyPath} (h : l ≠ []) : l.headD [] ∈ l := by
  cases l with
  | nil => exact absurd rfl h
  | cons a t => exact List.mem_cons_self _ _

/--
C2: if the scan finds two or more kept files sharing the same lowercased base name
anywhere across the base directories, the produced Export Document contains no section
for that filename; every filename that does appear in the document appears in exactly
one section (the document is the header plus one section per surviving file).
-/
theorem C2_duplicate_exclusion (walk : List (PyPath × Str)) (extensions excluded : List Str)
    (fs : ReadFS) :
    (∀ key : Str,
        2 ≤ (((collect_files walk extensions excluded).lookup key).getD []).length →
        ∀ pr ∈ unique_files (collect_files walk extensions excluded),
          toLowerStr (basenameOf pr.2) ≠ key)
    ∧ ((unique_files (collect_files walk extensions excluded)).map
        (fun pr => basenameOf pr.2)).Nodup
    ∧ generate_output fs (unique_files (collect_files walk extensions excluded))
        = copyHeader
          ++ (exportSections fs
              (unique_files (collect_files walk extensions excluded))).flatten := by
  obtain ⟨hnodup, hinv⟩ := collect_files_nodup_and_inv walk extensions excluded
  have hbase : ∀ e ∈ dedupe (collect_files walk extensions excluded),
      toLowerStr (basenameOf (e.2.headD [])) = e.1 := by
    intro e he
    have hem : e ∈ collect_files walk extensions excluded :=
      List.mem_of_mem_filter he
    obtain ⟨hne, hall⟩ := hinv e hem
    exact hall _ (headD_mem hne)
  refine ⟨?_, ?_, rfl⟩
  · intro key hlen pr hpr hcon
    unfold unique_files at hpr
    rw [List.mem_map] at hpr
    obtain ⟨e, he, hpe⟩ := hpr
    have hsmall : ¬ (2 ≤ e.2.length) := by
      have := List.of_mem_filter he
      simpa using this
    have hkey : e.1 = key := by
      rw [← hcon, ← hpe]
      exact (hbase e he).symm
    obtain ⟨ps, hps, hpslen⟩ :
        ∃ ps, (collect_files walk extensions excluded).lookup key = some ps
          ∧ 2 ≤ ps.length := by
      cases hx : (collect_files walk extensions excluded).lookup key with
      | none =>
        rw [hx] at hlen
        simp at hlen
      | some ps =>
        rw [hx] at hlen
        exact ⟨ps, rfl, by simpa using hlen⟩
    have hmem1 : (key, ps) ∈ collect_files walk extensions excluded := lookup_mem hps
    have hmem2 : (key, e.2) ∈ collect_files walk extensions excluded := by
      have := List.mem_of_mem_filter he
      rw [← hkey]
      exact (by
        have hpair : e = (e.1, e.2) := rfl
        rw [hpair] at this
        exact this)
    have := assoc_unique hnodup hmem1 hmem2
    rw [this] at hpslen
    exact hsmall hpslen
  · have hmapmap : ((unique_files (collect_files walk extensions excluded)).map
        (fun pr => basenameOf pr.2)).map toLowerStr
        = (dedupe (collect_files walk extensions excluded)).map Prod.fst := by
      unfold unique_files
      rw [List.map_map, List.map_map]
      exact List.map_congr_left hbase
    have hsub : List.Sublist
        ((dedupe (collect_files walk extensions excluded)).map Prod.fst)
        ((collect_files walk extensions excluded).map Prod.fst) :=
      List.Sublist.map Prod.fst (List.filter_sublist _)
    have hnd2 : (((unique_files (collect_files walk extensions excluded)).map
        (fun pr => basenameOf pr.2)).map toLowerStr).Nodup := by
      rw [hmapmap]
      exact hnodup.sublist hsub
    exact List.Nodup.of_map toLowerStr hnd2

/--
C2 witness: a concrete scan in which `x.py` occurs in both the working directory and the
`scripts` subdirectory while `y.py` occurs once; the duplicate filename is excluded.
-/
theorem C2_duplicate_exclusion_witness :
    (2 ≤ (((collect_files
        [([], str ("x.py")), ([str ("scripts")], str ("x.py")), ([], str ("y.py"))]
        [str (".py")] []).lookup (str ("x.py"))).getD []).length)
    ∧ ∀ pr ∈ unique_files (collect_files
        [([], str ("x.py")), ([str ("scripts")], str ("x.py")), ([], str ("y.py"))]
        [str (".py")] []),
        toLowerStr (basenameOf pr.2) ≠ str ("x.py") := by
  refine ⟨by decide, ?_⟩
  exact (C2_duplicate_exclusion
    [([], str ("x.py")), ([str ("scripts")], str ("x.py")), ([], str ("y.py"))]
    [str (".py")] [] (fun _ => none)).1 (str ("x.py")) (by decide)

theorem enumFrom_map_flatten_split (f : Nat × (Str × PyPath) → Str)
    (files : List (Str × PyPath)) :
    ∀ (n i : Nat) (hi : i < files.length),
    ∃ pre post, ((List.enumFrom n files).map f).flatten
      = pre ++ f (n + i, files.get ⟨i, hi⟩) ++ post := by
  induction files with
  | nil =>
    intro n i hi
    simp at hi
  | cons a rest ih =>
    intro n i hi
    cases i with
    | zero =>
      refine ⟨[], ((List.enumFrom (n + 1) rest).map f).flatten, ?_⟩
      simp [List.enumFrom]
    | succ j =>
      have hj : j < rest.length := by
        simp only [List.length_cons] at hi
        omega
      obtain ⟨pre, post, hp⟩ := ih (n + 1) j hj
      refine ⟨f (n, a) ++ pre, post, ?_⟩
      simp only [List.enumFrom, List.map_cons, List.flatten_cons, hp]
      have harith : n + 1 + j = n + (j + 1) := by omega
      rw [harith]
      simp [List.append_assoc]

/--
C7 (amended): when a collected file is unreadable the exporter logs a message and
continues: the Export Document still contains one section per collected file, in order,
and the section of the unreadable file carries the placeholder text
"[Error reading file]" as its contents instead of being skipped.
-/
theorem C7_unreadable_file_placeholder (fs : ReadFS) (files : List (Str × PyPath))
    (i : Nat) (hi : i < files.length) :
    (exportSections fs files).length = files.length
    ∧ (∃ pre post, generate_output fs files
        = pre ++ renderSection fs (1 + i) ((files.get ⟨i, hi⟩).2) ++ post)
    ∧ (fs ((files.get ⟨i, hi⟩).2) = none →
        read_file_contents fs ((files.get ⟨i, hi⟩).2) = str ("[Error reading file]")) := by
  refine ⟨by simp [exportSections], ?_, ?_⟩
  · obtain ⟨pre, post, hp⟩ :=
      enumFrom_map_flatten_split (fun pr => renderSection fs pr.1 pr.2.2) files 1 i hi
    refine ⟨copyHeader ++ pre, post, ?_⟩
    unfold generate_output exportSections
    rw [hp]
    simp [List.append_assoc]
  · intro h
    unfold read_file_contents
    rw [h]

/--
C7 witness: the amended theorem applied at the unreadable first file of a two-file
collection; the document still holds a section for it.
-/
theorem C7_unreadable_file_placeholder_witness :
    ∃ pre post,
      generate_output
          (fun p => if p = [str ("good.py")] then some (str ("print(1)")) else none)
          [(str ("bad.py"), [str ("bad.py")]), (str ("good.py"), [str ("good.py")])]
        = pre ++ renderSection
            (fun p => if p = [str ("good.py")] then some (str ("print(1)")) else none)
            (1 + 0) [str ("bad.py")] ++ post :=
  (C7_unreadable_file_placeholder
    (fun p => if p = [str ("good.py")] then some (str ("print(1)")) else none)
    [(str ("bad.py"), [str ("bad.py")]), (str ("good.py"), [str ("good.py")])]
    0 (by decide)).2.1

/--
C7 (counterexample): with `bad.py` unreadable and `good.py` readable, the Export Document
contains the numbered section header for `bad.py` together with the placeholder contents,
and both files produce sections — the unreadable item is not skipped, contradicting the
claim that the document contains no section for it.
-/
theorem C7_unreadable_file_counterexample :
    containsSub (str ("1) bad.py (located in the working directory):"))
        (generate_output
          (fun p => if p = [str ("good.py")] then some (str ("print(1)")) else none)
          [(str ("bad.py"), [str ("bad.py")]), (str ("good.py"), [str ("good.py")])]) = true
    ∧ containsSub (str ("[Error reading file]"))
        (generate_output
          (fun p => if p = [str ("good.py")] then some (str ("print(1)")) else none)
          [(str ("bad.py"), [str ("bad.py")]), (str ("good.py"), [str ("good.py")])]) = true
    ∧ (exportSections
        (fun p => if p = [str ("good.py")] then some (str ("print(1)")) else none)
        [(str ("bad.py"), [str ("bad.py")]), (str ("good.py"), [str ("good.py")])]).length
      = 2 := by
  decide

/-! ## The section splitter: `re.split(r'={5,}', content)`

The regex matches maximal runs of five or more equals signs; the splitter removes each
such run.  `splitEqGo` carries the piece built so far and the count of pending equals
signs not yet classified as delimiter or text.
-/

def splitEqGo : Str → Str → Nat → List Str
  | [], cur, eqs => if 5 ≤ eqs then [cur, []] else [cur ++ List.replicate eqs eqc]
  | c :: cs, cur, eqs =>
    if c = eqc then splitEqGo cs cur (eqs + 1)
    else if 5 ≤ eqs then cur :: splitEqGo cs [c] 0
    else splitEqGo cs (cur ++ List.replicate eqs eqc ++ [c]) 0

def splitEq5 (s : Str) : List Str := splitEqGo s [] 0

/-- `okRun eqs s`: scanning `s` with `eqs` pending equals signs meets no run of five and
ends with no pending equals signs (the string does not end in `=`). -/
def okRun : Nat → Str → Bool
  | eqs, [] => eqs == 0
  | eqs, c :: cs => if c = eqc then okRun (eqs + 1) cs else decide (eqs < 5) && okRun 0 cs

/-- Whether scanning meets a run of five or more equals signs. -/
def hasEqRun5 : Nat → Str → Bool
  | eqs, [] => decide (5 ≤ eqs)
  | eqs, c :: cs =>
    if 5 ≤ eqs then true
    else if c = eqc then hasEqRun5 (eqs + 1) cs else hasEqRun5 0 cs

theorem splitEqGo_ok {a : Str} :
    ∀ {eqs : Nat}, okRun eqs a = true → ∀ (b cur : Str),
    splitEqGo (a ++ b) cur eqs = splitEqGo b (cur ++ List.replicate eqs eqc ++ a) 0 := by
  induction a with
  | nil =>
    intro eqs h b cur
    have heqs : eqs = 0 := by simpa [okRun] using h
    subst heqs
    simp
  | cons c cs ih =>
    intro eqs h b cur
    by_cases hc : c = eqc
    · rw [hc] at h ⊢
      simp only [okRun, if_pos rfl] at h
      rw [List.cons_append]
      have hstep : splitEqGo (eqc :: (cs ++ b)) cur eqs = splitEqGo (cs ++ b) cur (eqs + 1) := by
        simp [splitEqGo]
      rw [hstep, ih h b cur]
      congr 1
      rw [List.replicate_succ' eqs eqc]
      simp [List.append_assoc]
    · simp only [okRun, if_neg hc, Bool.and_eq_true, decide_eq_true_eq] at h
      rw [List.cons_append]
      have hstep : splitEqGo (c :: (cs ++ b)) cur eqs
          = splitEqGo (cs ++ b) (cur ++ List.replicate eqs eqc ++ [c]) 0 := by
        simp only [splitEqGo, if_neg hc]
        rw [if_neg (by omega)]
      rw [hstep, ih h.2 b _]
      congr 1
      simp [List.append_assoc]

theorem splitEqGo_replicate (k : Nat) :
    ∀ (b cur : Str) (eqs : Nat),
    splitEqGo (List.replicate k eqc ++ b) cur eqs = splitEqGo b cur (eqs + k) := by
  induction k with
  | zero => intro b cur eqs; simp
  | succ k ih =>
    intro b cur eqs
    rw [List.replicate_succ, List.cons_append]
    have hstep : splitEqGo (eqc :: (List.replicate k eqc ++ b)) cur eqs
        = splitEqGo (List.replicate k eqc ++ b) cur (eqs + 1) := by
      simp [splitEqGo]
    rw [hstep, ih b cur (eqs + 1)]
    congr 1
    omega

/-- Splitting on a delimiter run of five or more equals signs: a clean piece before the
run is cut off, and splitting continues on the remainder. -/
theorem splitEq5_delim {k : Nat} (hk : 5 ≤ k) {p : Str} (hp : okRun 0 p = true)
    {c : Char} {r2 : Str} (hc : ¬ (c = eqc)) :
    splitEq5 (p ++ (List.replicate k eqc ++ (c :: r2))) = p :: splitEq5 (c :: r2) := by
  unfold splitEq5
  rw [splitEqGo_ok hp _ _]
  simp only [List.replicate_zero, List.append_nil, List.nil_append]
  rw [splitEqGo_replicate k (c :: r2) p 0]
  simp only [Nat.zero_add]
  have hstep : splitEqGo (c :: r2) p k = p :: splitEqGo r2 [c] 0 := by
    simp only [splitEqGo, if_neg hc]
    rw [if_pos hk]
  rw [hstep]
  congr 1
  simp only [splitEqGo, if_neg hc]
  rw [if_neg (by omega)]
  simp

theorem okRun_append {a : Str} :
    ∀ {eqs : Nat}, okRun eqs a = true → ∀ (b : Str), okRun eqs (a ++ b) = okRun 0 b := by
  induction a with
  | nil =>
    intro eqs h b
    have heqs : eqs = 0 := by simpa [okRun] using h
    subst heqs
    rfl
  | cons c cs ih =>
    intro eqs h b
    by_cases hc : c = eqc
    · rw [hc] at h ⊢
      simp only [okRun, if_pos rfl] at h ⊢
      exact ih h b
    · simp only [okRun, if_neg hc, Bool.and_eq_true, decide_eq_true_eq] at h
      simp only [List.cons_append, okRun, if_neg hc]
      rw [List.append_eq, ih h.2 b]
      simp [h.1]

theorem okRun_of_no_eq {a : Str} (h : eqc ∉ a) : okRun 0 a = true := by
  induction a with
  | nil => rfl
  | cons c cs ih =>
    have hc : ¬ (c = eqc) := fun hcon => h (by rw [hcon]; exact List.mem_cons_self _ _)
    simp only [okRun, if_neg hc]
    rw [ih (fun hm => h (List.mem_cons_of_mem _ hm))]
    simp

theorem okRun_of_no_run5 {a : Str} :
    ∀ {eqs : Nat}, hasEqRun5 eqs a = false → ∀ {c : Char}, ¬ (c = eqc) → ∀ (b : Str),
    okRun eqs (a ++ c :: b) = okRun 0 b := by
  induction a with
  | nil =>
    intro eqs h c hc b
    have heqs : eqs < 5 := by
      simp only [hasEqRun5, decide_eq_false_iff_not] at h
      omega
    simp only [List.nil_append, okRun, if_neg hc]
    rw [decide_eq_true heqs]
    simp
  | cons a0 as ih =>
    intro eqs h c hc b
    have h5 : ¬ (5 ≤ eqs) := by
      intro hcon
      simp only [hasEqRun5, if_pos hcon] at h
      exact Bool.noConfusion h
    by_cases ha : a0 = eqc
    · rw [ha]
      simp only [hasEqRun5, if_neg h5, ha, if_pos rfl] at h
      simp only [List.cons_append, okRun, if_pos rfl]
      exact ih h hc b
    · simp only [hasEqRun5, if_neg h5, if_neg ha] at h
      simp only [List.cons_append, okRun, if_neg ha]
      rw [List.append_eq, ih h hc b]
      rw [decide_eq_true (by omega : eqs < 5)]
      simp

/-! ## COPYSCRIPTS_SELECTIVE.py, `generate_output` -/

/-- The 20-equals delimiter line of COPYSCRIPTS_SELECTIVE.py. -/
def selDelim : Str := str ("====================")

def selHeaderText : Str :=
  str ("I’m encountering an error in my script, and I’ve included the output along with all related project scripts below. Please review and provide a complete fix. Ensure your response includes a fully functional, error-free, and deployment-ready script, with no placeholders or omissions. Additionally, any revised code should be as compact as possible, without remarks or docstrings, while maintaining full functionality, compatibility, and interoperability. If no changes are needed, there’s no need to include the script in your response.\n\n")

/-- Python `str.replace` of CRLF by LF, as in the selective `read_file_contents`
(heuristic decoding is abstracted: the file model already holds the decoded text). -/
def selReplaceCRLF : Str → Str
  | [] => []
  | [c] => [c]
  | c :: d :: rest =>
    if c = Char.ofNat 13 then
      if d = nlc then nlc :: selReplaceCRLF rest
      else c :: selReplaceCRLF (d :: rest)
    else c :: selReplaceCRLF (d :: rest)

def sel_read_file_contents (fs : ReadFS) (p : PyPath) : Str :=
  match fs p with
  | some raw => selReplaceCRLF raw
  | none => str ("[Error reading file]")

def selErrorHeader (log : Option Str) : Str :=
  (match log with
    | some lc =>
      str ("See the error I receive here:\n\n") ++ selDelim ++ str ("\n\n") ++ lc
        ++ str ("\n\n") ++ selDelim ++ str ("\n\n")
    | none => [])
  ++ str ("I") ++ [aposc] ++ str ("ve listed all the scripts in this project here:\n\n")
  ++ selDelim ++ str ("\n\n")

/-- One section of the selective document: `f"{filename}:\n{contents}\n{delimiter}"`. -/
def selSection (fs : ReadFS) (e : Str × List PyPath) : Str :=
  e.1 ++ str (":\n") ++ sel_read_file_contents fs (e.2.headD []) ++ str ("\n") ++ selDelim

/-- `generate_output` of COPYSCRIPTS_SELECTIVE.py: newline-joined header and sections. -/
def selective_generate_output (fs : ReadFS) (m : List (Str × List PyPath))
    (log : Option Str) : Str :=
  joinWith [nlc] ((selHeaderText ++ selErrorHeader log) :: m.map (selSection fs))

/-! ### Delimiter-line lemmas -/

theorem splitOnChar_ne_nil (c : Char) (s : Str) : splitOnChar c s ≠ [] := by
  induction s with
  | nil => simp [splitOnChar]
  | cons a t ih =>
    simp only [splitOnChar]
    cases hx : splitOnChar c t with
    | nil => simp
    | cons h u =>
      by_cases ha : a == c
      · simp [ha]
      · simp [ha]

theorem splitOnChar_append (c : Char) (x rest : Str) :
    splitOnChar c (x ++ c :: rest) = splitOnChar c x ++ splitOnChar c rest := by
  induction x with
  | nil =>
    simp only [List.nil_append, splitOnChar]
    cases hx : splitOnChar c rest with
    | nil => exact absurd hx (splitOnChar_ne_nil c rest)
    | cons h u => simp
  | cons a x2 ih =>
    rw [List.cons_append]
    simp only [splitOnChar, ih]
    cases hx : splitOnChar c x2 with
    | nil => exact absurd hx (splitOnChar_ne_nil c x2)
    | cons h u =>
      by_cases ha : a == c
      · simp [ha]
      · simp [ha]

theorem splitOnChar_no_sep {c : Char} {s : Str} (h : c ∉ s) : splitOnChar c s = [s] := by
  induction s with
  | nil => rfl
  | cons a t ih =>
    have ha : ¬ (a == c) := by
      intro hcon
      exact h (by rw [show a = c from by simpa [beq_iff_eq] using hcon]; exact List.mem_cons_self _ _)
    simp only [splitOnChar, ih (fun hm => h (List.mem_cons_of_mem _ hm))]
    simp [ha]

theorem delim_line_mem {d : Str} (hd : nlc ∉ d) (x y : Str) :
    d ∈ splitOnChar nlc (x ++ nlc :: (d ++ nlc :: y)) := by
  rw [splitOnChar_append, splitOnChar_append, splitOnChar_no_sep hd]
  simp

theorem delim_line_mem_last {d : Str} (hd : nlc ∉ d) (x : Str) :
    d ∈ splitOnChar nlc (x ++ nlc :: d) := by
  rw [splitOnChar_append, splitOnChar_no_sep hd]
  simp

/--
C6 (amended): the copyscripts exporter terminates every per-file section with a
delimiter line of exactly 34 equals signs and the selective exporter with exactly 20 (not
20 in both, as claimed); both are runs of five or more equals signs, so the importer cuts
a section at each of them.
-/
theorem C6_delimiter_format (fs : ReadFS) (idx : Nat) (p : PyPath) (e : Str × List PyPath)
    (pfx : Str) (hp : okRun 0 pfx = true) (c : Char) (r2 : Str) (hc : ¬ (c = eqc)) :
    copyDelim = List.replicate 34 eqc
    ∧ selDelim = List.replicate 20 eqc
    ∧ copyDelim ∈ splitOnChar nlc (renderSection fs idx p)
    ∧ selDelim ∈ splitOnChar nlc (selSection fs e)
    ∧ splitEq5 (pfx ++ (copyDelim ++ (c :: r2))) = pfx :: splitEq5 (c :: r2)
    ∧ splitEq5 (pfx ++ (selDelim ++ (c :: r2))) = pfx :: splitEq5 (c :: r2) := by
  refine ⟨by decide, by decide, ?_, ?_, ?_, ?_⟩
  · have hshape : renderSection fs idx p
        = (natStr idx ++ str (") ") ++ basenameOf p ++ str (" (") ++ locationStr p
            ++ str ("):") ++ [nlc] ++ [nlc] ++ read_file_contents fs p ++ [nlc])
          ++ nlc :: (copyDelim ++ nlc :: [nlc]) := by
      unfold renderSection
      simp [str, nlc, List.append_assoc]
    rw [hshape]
    exact delim_line_mem (by decide) _ _
  · have hshape : selSection fs e
        = (e.1 ++ [':', nlc] ++ sel_read_file_contents fs (e.2.headD []))
          ++ nlc :: selDelim := by
      unfold selSection
      simp [str, nlc, List.append_assoc]
    rw [hshape]
    exact delim_line_mem_last (by decide) _
  · have h34 : copyDelim = List.replicate 34 eqc := by decide
    rw [h34]
    exact splitEq5_delim (by omega) hp hc
  · have h20 : selDelim = List.replicate 20 eqc := by decide
    rw [h20]
    exact splitEq5_delim (by omega) hp hc

/--
C6 witness: the amended delimiter statement applied at a concrete section and a concrete
clean prefix.
-/
theorem C6_delimiter_format_witness :
    splitEq5 (str ("a\n") ++ (copyDelim ++ (str ("\nb"))))
      = str ("a\n") :: splitEq5 (str ("\nb")) :=
  (C6_delimiter_format (fun _ => none) 1 [str ("a.py")] (str ("a.py"), [[str ("a.py")]])
    (str ("a\n")) (by decide) nlc (str ("b")) (by decide)).2.2.2.2.1

/--
C6 (counterexample): the document emitted by copyscripts.py for a one-file project has no
line of exactly 20 equals signs; its delimiter lines carry 34.  The claimed
"exactly 20" delimiter is false for this exporter.
-/
theorem C6_delimiter_counterexample :
    ¬ (List.replicate 20 eqc
        ∈ splitOnChar nlc (generate_output
          (fun p => if p = [str ("a.py")] then some (str ("print(1)")) else none)
          [(str ("a.py"), [str ("a.py")])]))
    ∧ List.replicate 34 eqc
        ∈ splitOnChar nlc (generate_output
          (fun p => if p = [str ("a.py")] then some (str ("print(1)")) else none)
          [(str ("a.py"), [str ("a.py")])]) := by
  decide

/-! ## REVERT-to-GPT-scripts.py, the importer

The header pattern `^\s*\d+\)\s+([^\s]+)\s+\(located in the (working directory|'([^']+)'
subdirectory)\):\s*\n` (MULTILINE) is embedded as a deterministic matcher: each
quantifier is maximal-munch, which agrees with the backtracking regex here because every
quantified class is disjoint from the literal that follows it; `\s*\n` ends after the
last newline of the maximal whitespace run, which must contain a newline.  `re.search`
tries line starts left to right (a `^` anchor can only match at position 0 or after a
newline).
-/

def EXCLUDED_FILES : List Str :=
  [str (".gitignore"), str ("copyscripts.py"), str ("repair-remarks.py"),
   str ("REVERT-to-GPT-scripts.py")]

inductive Loc where
  | wd : Loc
  | sub : Str → Loc
deriving DecidableEq

def dropChar (c : Char) : Str → Option Str
  | [] => none
  | d :: rest => if d = c then some rest else none

/-- The remainder after the `\s*\n` tail: the maximal whitespace run must contain a
newline, and the match ends after the last newline of that run. -/
def matchEnd (s : Str) : Option Str :=
  let ws := s.takeWhile isPyWs
  if ws.any (· == nlc) then
    some ((ws.reverse.takeWhile (· != nlc)).reverse ++ s.dropWhile isPyWs)
  else none

/-- The alternation `(working directory|'([^']+)' subdirectory)` followed by `\):`,
with the backtrack from the first alternative to the second. -/
def matchLoc (s : Str) : Option (Loc × Str) :=
  match (match dropLit (str ("working directory")) s with
        | some r =>
          match dropLit (str ("):")) r with
          | some r2 => some (Loc.wd, r2)
          | none => none
        | none => none) with
  | some res => some res
  | none =>
    match dropChar aposc s with
    | none => none
    | some s1 =>
      let name := s1.takeWhile (· != aposc)
      if name = [] then none
      else
        match dropLit ([aposc] ++ str (" subdirectory") ++ str ("):"))
            (s1.dropWhile (· != aposc)) with
        | some r2 => some (Loc.sub name, r2)
        | none => none

/-- One anchored attempt of the header pattern. -/
def matchHeaderAt (s : Str) : Option (Str × Loc × Str) :=
  let s1 := s.dropWhile isPyWs
  let ds := s1.takeWhile isDigitC
  if ds = [] then none
  else
    match dropChar ')' (s1.dropWhile isDigitC) with
    | none => none
    | some s2 =>
      if s2.takeWhile isPyWs = [] then none
      else
        let s3 := s2.dropWhile isPyWs
        let fname := s3.takeWhile (fun c => !isPyWs c)
        if fname = [] then none
        else
          let s4 := s3.dropWhile (fun c => !isPyWs c)
          if s4.takeWhile isPyWs = [] then none
          else
            match dropLit (str ("(located in the ")) (s4.dropWhile isPyWs) with
            | none => none
            | some s6 =>
              match matchLoc s6 with
              | none => none
              | some (loc, s7) =>
                match matchEnd s7 with
                | none => none
                | some rest => some (fname, loc, rest)

/-- Scan the line starts of a section left to right, attempting the anchored match. -/
def fhAux : Bool → Str → Option (Str × Loc × Str)
  | _, [] => none
  | tryHere, c :: rest =>
    if tryHere then
      match matchHeaderAt (c :: rest) with
      | some r => some r
      | none => fhAux (c == nlc) rest
    else fhAux (c == nlc) rest

def findHeader (s : Str) : Option (Str × Loc × Str) := fhAux true s

structure Script where
  filename : Str
  directory : PyPath
  content : Str
deriving DecidableEq

/-- The per-section body of `parse_gptbak_file`: resolve the target directory (only the
working directory and the literal `scripts` subdirectory are accepted), skip excluded
filenames, and take the stripped content after the match. -/
def sectionToScript (sect : Str) : Option Script :=
  match findHeader sect with
  | none => none
  | some (fname, loc, rest) =>
    match (match loc with
          | Loc.wd => some ([] : PyPath)
          | Loc.sub name =>
            if name = str ("scripts") then some [str ("scripts")] else none) with
    | none => none
    | some dir =>
      if fname ∈ EXCLUDED_FILES then none
      else some ⟨fname, dir, pyStrip (stripBticks (pyStrip rest))⟩

def parse_gptbak_file (doc : Str) : List Script :=
  (splitEq5 doc).filterMap sectionToScript

/-! ### `replace_scripts` with an explicit mutation trace -/

abbrev ScriptFS := List (PyPath × Str)

inductive Mut where
  | mkdirp : PyPath → Mut
  | del : PyPath → Mut
  | write : PyPath → Str → Mut
  | renameArt : Str → Str → Mut
deriving DecidableEq

def managedDirs : List PyPath := [[], [str ("scripts")]]

/-- `target_dir / filename`: pathlib splits the filename on `/` (POSIX model). -/
def splitSlash (fname : Str) : List Str := splitOnChar '/' fname

/-- `find_existing_scripts`: a non-recursive literal glob of each managed directory for
the filename, skipping excluded names (wildcard patterns are not modelled; the theorems
below hypothesise their absence). -/
def find_existing_scripts (managed : List PyPath) (fname : Str) (fs : ScriptFS) :
    List PyPath :=
  managed.flatMap (fun d =>
    (fs.map Prod.fst).filter
      (fun p => p == d ++ splitSlash fname && !(EXCLUDED_FILES.contains (basenameOf p))))

def fsDelete (fs : ScriptFS) (p : PyPath) : ScriptFS := fs.filter (fun e => !(e.1 == p))

def fsWrite (fs : ScriptFS) (p : PyPath) (c : Str) : ScriptFS :=
  if (fs.map Prod.fst).contains p then fs.map (fun e => if e.1 == p then (p, c) else e)
  else fs ++ [(p, c)]

/-- One iteration of the `for script in scripts` loop of `replace_scripts`: ensure the
target directory, delete existing same-named scripts found in the managed directories,
write the new content. -/
def replaceScript (managed : List PyPath) (acc : ScriptFS × List Mut) (s : Script) :
    ScriptFS × List Mut :=
  let existing := find_existing_scripts managed s.filename acc.1
  let fs2 := existing.foldl fsDelete acc.1
  let newPath := s.directory ++ splitSlash s.filename
  (fsWrite fs2 newPath s.content,
    acc.2 ++ [Mut.mkdirp s.directory] ++ existing.map Mut.del
      ++ [Mut.write newPath s.content])

def replace_scripts (scripts : List Script) (managed : List PyPath) (fs : ScriptFS) :
    ScriptFS × List Mut :=
  scripts.foldl (replaceScript managed) (fs, [])

/-- A mutation that stays within the two managed directories. -/
def mutOk : Mut → Prop
  | Mut.mkdirp p => p ∈ managedDirs
  | Mut.del p => p.dropLast ∈ managedDirs
  | Mut.write p _ => p.dropLast ∈ managedDirs
  | Mut.renameArt _ _ => True

theorem parse_script_mem {doc : Str} {s : Script} (h : s ∈ parse_gptbak_file doc) :
    s.directory ∈ managedDirs ∧ s.filename ∉ EXCLUDED_FILES := by
  unfold parse_gptbak_file at h
  rw [List.mem_filterMap] at h
  obtain ⟨sect, _, hs⟩ := h
  unfold sectionToScript at hs
  cases hfind : findHeader sect with
  | none => rw [hfind] at hs; exact Option.noConfusion hs
  | some r =>
    obtain ⟨fname, loc, rest⟩ := r
    rw [hfind] at hs
    cases loc with
    | wd =>
      simp only at hs
      by_cases hex : fname ∈ EXCLUDED_FILES
      · rw [if_pos hex] at hs
        exact Option.noConfusion hs
      · rw [if_neg hex] at hs
        cases hs
        exact ⟨by simp [managedDirs], hex⟩
    | sub name =>
      simp only at hs
      by_cases hn : name = str ("scripts")
      · rw [if_pos hn] at hs
        simp only at hs
        by_cases hex : fname ∈ EXCLUDED_FILES
        · rw [if_pos hex] at hs
          exact Option.noConfusion hs
        · rw [if_neg hex] at hs
          cases hs
          exact ⟨by simp [managedDirs], hex⟩
      · rw [if_neg hn] at hs
        exact Option.noConfusion hs

theorem find_existing_shape {fname : Str} (hs : '/' ∉ fname) {fs : ScriptFS} {p : PyPath}
    (h : p ∈ find_existing_scripts managedDirs fname fs) :
    ∃ d ∈ managedDirs, p = d ++ [fname] := by
  unfold find_existing_scripts at h
  rw [List.mem_flatMap] at h
  obtain ⟨d, hd, hp⟩ := h
  refine ⟨d, hd, ?_⟩
  have := List.of_mem_filter hp
  rw [Bool.and_eq_true, beq_iff_eq] at this
  rw [this.1]
  unfold splitSlash
  rw [splitOnChar_no_sep hs]

/--
C3 (amended): the importer routes the descriptor "working directory" to the working
directory and the quoted subdirectory "scripts" to the scripts subdirectory, and skips
every section with any other quoted subdirectory name.  Provided every parsed filename is
a plain name (no `/`, not `.` or `..`), every mutation of `replace_scripts` — directory
creation, deletion, write — stays within the two managed directories; deletion only uses
the non-recursive listing of those directories.
-/
theorem C3_location_fidelity :
    (∀ (sect fname : Str) (rest : Str),
        findHeader sect = some (fname, Loc.wd, rest) →
        fname ∉ EXCLUDED_FILES →
        sectionToScript sect = some ⟨fname, [], pyStrip (stripBticks (pyStrip rest))⟩)
    ∧ (∀ (sect fname : Str) (rest : Str),
        findHeader sect = some (fname, Loc.sub (str ("scripts")), rest) →
        fname ∉ EXCLUDED_FILES →
        sectionToScript sect
          = some ⟨fname, [str ("scripts")], pyStrip (stripBticks (pyStrip rest))⟩)
    ∧ (∀ (sect fname name : Str) (rest : Str),
        findHeader sect = some (fname, Loc.sub name, rest) →
        name ≠ str ("scripts") →
        sectionToScript sect = none)
    ∧ (∀ (doc : Str) (fs : ScriptFS),
        (∀ s ∈ parse_gptbak_file doc,
          '/' ∉ s.filename ∧ s.filename ≠ str (".") ∧ s.filename ≠ str ("..")) →
        ∀ mu ∈ (replace_scripts (parse_gptbak_file doc) managedDirs fs).2, mutOk mu) := by
  refine ⟨?_, ?_, ?_, ?_⟩
  · intro sect fname rest hfind hex
    unfold sectionToScript
    rw [hfind]
    simp [hex]
  · intro sect fname rest hfind hex
    unfold sectionToScript
    rw [hfind]
    simp [hex]
  · intro sect fname name rest hfind hname
    unfold sectionToScript
    rw [hfind]
    simp [hname]
  · intro doc fs hplain
    have hdirs : ∀ s ∈ parse_gptbak_file doc, s.directory ∈ managedDirs :=
      fun s hs => (parse_script_mem hs).1
    suffices hgen : ∀ (scripts : List Script),
        (∀ s ∈ scripts, s.directory ∈ managedDirs) →
        (∀ s ∈ scripts, '/' ∉ s.filename) →
        ∀ (fs0 : ScriptFS) (muts0 : List Mut),
        (∀ mu ∈ muts0, mutOk mu) →
        ∀ mu ∈ (scripts.foldl (replaceScript managedDirs) (fs0, muts0)).2, mutOk mu by
      exact fun mu hmut => hgen (parse_gptbak_file doc) hdirs
        (fun s hs => (hplain s hs).1) fs [] (by intro m hm; simp at hm) mu hmut
    intro scripts
    induction scripts with
    | nil =>
      intro _ _ fs0 muts0 hmuts mu hmut
      exact hmuts mu hmut
    | cons s rest ih =>
      intro hdirs2 hplain2 fs0 muts0 hmuts mu hmut
      rw [List.foldl_cons] at hmut
      refine ih (fun x hx => hdirs2 x (List.mem_cons_of_mem _ hx))
        (fun x hx => hplain2 x (List.mem_cons_of_mem _ hx)) _ _ ?_ mu hmut
      intro m hm
      unfold replaceScript at hm
      simp only at hm
      rw [List.mem_append, List.mem_append, List.mem_append] at hm
      have hsd : s.directory ∈ managedDirs := hdirs2 s (List.mem_cons_self _ _)
      have hsp : '/' ∉ s.filename := hplain2 s (List.mem_cons_self _ _)
      rcases hm with ((hm | hm) | hm) | hm
      · exact hmuts m hm
      · simp only [List.mem_singleton] at hm
        rw [hm]
        exact hsd
      · rw [List.mem_map] at hm
        obtain ⟨p, hp, hmp⟩ := hm
        obtain ⟨d, hd, hpd⟩ := find_existing_shape hsp hp
        rw [← hmp]
        show (p.dropLast ∈ managedDirs)
        rw [hpd, List.dropLast_concat]
        exact hd
      · simp only [List.mem_singleton] at hm
        rw [hm]
        show ((s.directory ++ splitSlash s.filename).dropLast ∈ managedDirs)
        unfold splitSlash
        rw [splitOnChar_no_sep hsp, List.dropLast_concat]
        exact hsd

/--
C3 witness: the amended theorem applied to a concrete one-section artifact restoring
`x.py` to the working directory.
-/
theorem C3_location_fidelity_witness :
    ∀ mu ∈ (replace_scripts
        (parse_gptbak_file (str ("1) x.py (located in the working directory):\nhello\n")))
        managedDirs []).2, mutOk mu := by
  intro mu hmut
  refine (C3_location_fidelity).2.2.2
    (str ("1) x.py (located in the working directory):\nhello\n")) [] ?_ mu hmut
  intro s hs
  have hparse : parse_gptbak_file (str ("1) x.py (located in the working directory):\nhello\n"))
      = [⟨str ("x.py"), [], str ("hello")⟩] := by decide
  rw [hparse] at hs
  simp only [List.mem_singleton] at hs
  rw [hs]
  exact ⟨by decide, by decide, by decide⟩

/--
C3 (counterexample): a section whose filename is `a/b.py` (the header pattern `[^\s]+`
accepts slashes) with descriptor "working directory" makes the importer write to
`a/b.py`, a path whose parent is the subdirectory `a` — outside both managed
directories.
-/
theorem C3_location_fidelity_counterexample :
    parse_gptbak_file (str ("1) a/b.py (located in the working directory):\nx\n"))
      = [⟨str ("a/b.py"), [], str ("x")⟩]
    ∧ Mut.write [str ("a"), str ("b.py")] (str ("x"))
        ∈ (replace_scripts
            (parse_gptbak_file (str ("1) a/b.py (located in the working directory):\nx\n")))
            managedDirs []).2
    ∧ ([str ("a"), str ("b.py")] : PyPath).dropLast ∉ managedDirs := by
  decide

/-! ### The interactive `main` loop of the importer

Console input is a finite list of strings; `input()` at end of input raises `EOFError`
and aborts the process, modelled by halting with no further events.  The loop is driven
by fuel; every theorem quantifies over all fuels.
-/

structure ImpState where
  arts : List (Str × Str)
  fs : ScriptFS
deriving DecidableEq

/-- `directory.glob('*.GPTBAK')`: pathlib glob is a plain fnmatch, which also matches
names beginning with a dot. -/
def list_gptbak_files (arts : List (Str × Str)) : List (Str × Str) :=
  arts.filter (fun a => trailsWith (str (".GPTBAK")) a.1)

/-- Python `str.isdigit` restricted to ASCII. -/
def isDigitsStr (s : Str) : Bool := !(s.isEmpty) && s.all isDigitC

def strToNat (s : Str) : Nat := s.foldl (fun n c => n * 10 + (c.toNat - 48)) 0

/-- The numbered-menu loop of `prompt_user_to_select_gptbak`. -/
def selectLoop (count : Nat) : List Str → Option (Nat × List Str)
  | [] => none
  | i :: rest =>
    let choice := pyStrip i
    if isDigitsStr choice then
      let n := strToNat choice
      if 1 ≤ n ∧ n ≤ count then some (n, rest) else selectLoop count rest
    else selectLoop count rest

def prompt_user_to_select_gptbak (files : List (Str × Str)) (ins : List Str) :
    Option ((Str × Str) × Nat × List Str) :=
  match files with
  | [] => none
  | [f] => some (f, 1, ins)
  | _ :: _ :: _ =>
    match selectLoop files.length ins with
    | none => none
    | some (n, rest) => some (files.getD (n - 1) ([], []), n, rest)

/-- `confirm_overwrite`: repeat until the stripped input equals the phrase. -/
def confirm_overwrite_loop : List Str → Option (List Str)
  | [] => none
  | i :: rest =>
    if pyStrip i = str ("I am sure") then some rest else confirm_overwrite_loop rest

def sanitize_filename_comment (comment : Str) : Str :=
  comment.map (fun c => if c ∈ str ("<>:\"/\\|?*") then '_' else c)

/-- Index of the last `.` in a name, as `str.rfind('.')` when it succeeds. -/
def lastDotIdx : Str → Option Nat
  | [] => none
  | c :: cs =>
    match lastDotIdx cs with
    | some j => some (j + 1)
    | none => if c = dotc then some 0 else none

/-- `PurePath.suffix`: the extension from the last dot, unless the dot is leading or
trailing. -/
def pySuffix (name : Str) : Str :=
  match lastDotIdx name with
  | some i => if 0 < i ∧ i < name.length - 1 then name.drop i else []
  | none => []

/-- `PurePath.stem`: the name without its suffix. -/
def pyStem (name : Str) : Str :=
  match lastDotIdx name with
  | some i => if 0 < i ∧ i < name.length - 1 then name.take i else name
  | none => name

/-- `f"{gptbak_file.stem} - {sanitized_comment}{gptbak_file.suffix}"`. -/
def renameName (name comment : Str) : Str :=
  pyStem name ++ str (" - ") ++ sanitize_filename_comment comment ++ pySuffix name

/-- `rename_gptbak_file` on the artifact directory: skip when the destination exists,
otherwise rename in place. -/
def rename_gptbak_file (arts : List (Str × Str)) (target comment : Str) :
    (List (Str × Str)) × List Mut :=
  let newName := renameName target comment
  if (arts.map Prod.fst).contains newName then (arts, [])
  else (arts.map (fun a => if a.1 == target then (newName, a.2) else a),
    [Mut.renameArt target newName])

/-- `prompt_amend_filename`: an empty stripped comment renames nothing. -/
def prompt_amend (arts : List (Str × Str)) (target : Str) (ins : List Str) :
    (List (Str × Str)) × List Mut × List Str :=
  match ins with
  | [] => (arts, [], [])
  | i :: rest =>
    let comment := pyStrip i
    if comment = [] then (arts, [], rest)
    else
      let r := rename_gptbak_file arts target comment
      (r.1, r.2, rest)

/-- The `while True` loop of `main`, returning the trace of filesystem mutations. -/
def mainLoop : ImpState → Nat → List Str → List Mut
  | _, 0, _ => []
  | st, fuel + 1, ins =>
    match prompt_user_to_select_gptbak (list_gptbak_files st.arts) ins with
    | none => []
    | some (sel, _, ins1) =>
      match confirm_overwrite_loop ins1 with
      | none => []
      | some ins2 =>
        let scripts := parse_gptbak_file sel.2
        if scripts = [] then
          let a := prompt_amend st.arts sel.1 ins2
          a.2.1 ++ mainLoop { arts := a.1, fs := st.fs } fuel a.2.2
        else
          let r := replace_scripts scripts managedDirs st.fs
          let a := prompt_amend st.arts sel.1 ins2
          if list_gptbak_files a.1 = [] then r.2 ++ a.2.1
          else
            match a.2.2 with
            | [] => r.2 ++ a.2.1
            | i :: rest =>
              if toLowerStr (pyStrip i) = str ("y") ∨ toLowerStr (pyStrip i) = str ("yes")
              then r.2 ++ a.2.1 ++ mainLoop { arts := a.1, fs := r.1 } fuel rest
              else r.2 ++ a.2.1

theorem selectLoop_mem {count : Nat} :
    ∀ {ins : List Str} {n : Nat} {rest : List Str},
    selectLoop count ins = some (n, rest) → ∀ x ∈ rest, x ∈ ins := by
  intro ins
  induction ins with
  | nil => intro n rest h; simp [selectLoop] at h
  | cons i tl ih =>
    intro n rest h x hx
    simp only [selectLoop] at h
    by_cases hd : isDigitsStr (pyStrip i) = true
    · rw [if_pos hd] at h
      by_cases hr : 1 ≤ strToNat (pyStrip i) ∧ strToNat (pyStrip i) ≤ count
      · rw [if_pos hr] at h
        cases h
        exact List.mem_cons_of_mem _ hx
      · rw [if_neg hr] at h
        exact List.mem_cons_of_mem _ (ih h x hx)
    · rw [if_neg hd] at h
      exact List.mem_cons_of_mem _ (ih h x hx)

theorem select_mem {g : List (Str × Str)} {ins : List Str} {sel : Str × Str} {n : Nat}
    {ins1 : List Str}
    (h : prompt_user_to_select_gptbak g ins = some (sel, n, ins1)) :
    ∀ x ∈ ins1, x ∈ ins := by
  cases g with
  | nil => simp [prompt_user_to_select_gptbak] at h
  | cons f tl =>
    cases tl with
    | nil =>
      simp only [prompt_user_to_select_gptbak] at h
      cases h
      exact fun x hx => hx
    | cons f2 tl2 =>
      simp only [prompt_user_to_select_gptbak] at h
      cases hsel : selectLoop (f :: f2 :: tl2).length ins with
      | none => rw [hsel] at h; exact Option.noConfusion h
      | some r =>
        obtain ⟨m, rest⟩ := r
        rw [hsel] at h
        cases h
        exact selectLoop_mem hsel

theorem confirm_none {ins : List Str}
    (h : ∀ i ∈ ins, pyStrip i ≠ str ("I am sure")) :
    confirm_overwrite_loop ins = none := by
  induction ins with
  | nil => rfl
  | cons i rest ih =>
    simp only [confirm_overwrite_loop]
    rw [if_neg (h i (List.mem_cons_self _ _))]
    exact ih (fun x hx => h x (List.mem_cons_of_mem _ hx))

/--
C4 (amended): for every input sequence none of whose entries strips to the phrase
"I am sure", the importer loop performs no filesystem mutation at all — selection input
and failed confirmations only re-prompt; mutation is gated on an input whose
whitespace-stripped form equals the phrase (not on the exact phrase alone, since
`confirm_overwrite` strips the input before comparing).
-/
theorem C4_confirmation_gating (fuel : Nat) :
    ∀ (st : ImpState) (ins : List Str),
    (∀ i ∈ ins, pyStrip i ≠ str ("I am sure")) →
    mainLoop st fuel ins = [] := by
  induction fuel with
  | zero => intro st ins _; rfl
  | succ n ih =>
    intro st ins h
    simp only [mainLoop]
    cases hsel : prompt_user_to_select_gptbak (list_gptbak_files st.arts) ins with
    | none => rfl
    | some r =>
      obtain ⟨sel, selNum, ins1⟩ := r
      dsimp only
      have h1 : ∀ i ∈ ins1, pyStrip i ≠ str ("I am sure") :=
        fun i hi => h i (select_mem hsel i hi)
      rw [confirm_none h1]

/--
C4 witness: the gating theorem at a concrete state holding one artifact and inputs that
never strip to the phrase.
-/
theorem C4_confirmation_gating_witness :
    mainLoop
      ⟨[(str ("a.GPTBAK"), str ("1) x.py (located in the working directory):\nhello\n"))], []⟩
      5 [str ("nope"), str ("I am sure!"), str ("2")] = [] :=
  C4_confirmation_gating 5
    ⟨[(str ("a.GPTBAK"), str ("1) x.py (located in the working directory):\nhello\n"))], []⟩
    [str ("nope"), str ("I am sure!"), str ("2")] (by decide)

/--
C4 (counterexample): with the single input `" I am sure"` (leading space) the importer
proceeds and mutates the filesystem although the exact phrase "I am sure" was never
entered — the claim that any other input causes a re-prompt and never proceeds is false,
because the input is stripped before comparison.
-/
theorem C4_confirmation_gating_counterexample :
    mainLoop
        ⟨[(str ("a.GPTBAK"), str ("1) x.py (located in the working directory):\nhello\n"))], []⟩
        3 [str (" I am sure"), str (""), str ("n")] ≠ []
    ∧ ∀ i ∈ [str (" I am sure"), str (""), str ("n")], i ≠ str ("I am sure") := by
  decide

theorem leadsWith_iff {p : Str} : ∀ {s : Str}, leadsWith p s = true ↔ ∃ t, s = p ++ t := by
  induction p with
  | nil =>
    intro s
    constructor
    · intro _
      exact ⟨s, rfl⟩
    · intro _
      rfl
  | cons c cs ih =>
    intro s
    cases s with
    | nil =>
      constructor
      · intro h
        exact absurd h (by simp [leadsWith])
      · intro h
        obtain ⟨t, ht⟩ := h
        exact absurd ht (by simp)
    | cons d t =>
      constructor
      · intro h
        simp only [leadsWith, Bool.and_eq_true, beq_iff_eq] at h
        obtain ⟨u, hu⟩ := ih.mp h.2
        exact ⟨u, by rw [h.1, hu]; rfl⟩
      · intro h
        obtain ⟨u, hu⟩ := h
        rw [List.cons_append] at hu
        injection hu with h1 h2
        simp only [leadsWith, Bool.and_eq_true, beq_iff_eq]
        exact ⟨h1.symm, ih.mpr ⟨u, h2⟩⟩

theorem trailsWith_exists {p s : Str} (h : trailsWith p s = true) : ∃ pre, s = pre ++ p := by
  unfold trailsWith at h
  obtain ⟨t, ht⟩ := leadsWith_iff.mp h
  refine ⟨t.reverse, ?_⟩
  have hrev := congrArg List.reverse ht
  simpa using hrev

theorem trailsWith_concat (p x : Str) : trailsWith p (x ++ p) = true := by
  unfold trailsWith
  rw [List.reverse_append]
  exact leadsWith_iff.mpr ⟨x.reverse, rfl⟩

theorem lastDotIdx_append {b : Str} {j : Nat} (h : lastDotIdx b = some j) (a : Str) :
    lastDotIdx (a ++ b) = some (a.length + j) := by
  induction a with
  | nil => simpa using h
  | cons c cs ih =>
    rw [List.cons_append]
    simp only [lastDotIdx, ih]
    have : cs.length + j + 1 = (c :: cs).length + j := by
      simp [List.length_cons]
      omega
    rw [← this]

theorem sanitize_no_slash (c : Str) : '/' ∉ sanitize_filename_comment c := by
  intro hm
  unfold sanitize_filename_comment at hm
  rw [List.mem_map] at hm
  obtain ⟨a, _, hmap⟩ := hm
  by_cases hc : a ∈ str ("<>:\"/\\|?*")
  · rw [if_pos hc] at hmap
    exact absurd hmap (by decide)
  · rw [if_neg hc] at hmap
    rw [hmap] at hc
    exact hc (by decide)

/--
C10 (amended): for every processed artifact whose name is not exactly ".GPTBAK",
renaming with a user comment preserves the ".GPTBAK" extension and introduces no path
separator, so the renamed artifact still appears in the importer's subsequent artifact
listing of the working directory (renaming is skipped altogether when the destination
name already exists, in which case the artifact remains listed under its old name).
-/
theorem C10_rename_keeps_listing (name comment : Str) (arts : List (Str × Str))
    (hend : trailsWith (str (".GPTBAK")) name = true)
    (hne : name ≠ str (".GPTBAK"))
    (hslash : '/' ∉ name) :
    trailsWith (str (".GPTBAK")) (renameName name comment) = true
    ∧ '/' ∉ renameName name comment
    ∧ ∀ content : Str, (name, content) ∈ arts →
        ((arts.map Prod.fst).contains (renameName name comment)) = false →
        (renameName name comment, content)
          ∈ list_gptbak_files (rename_gptbak_file arts name comment).1 := by
  obtain ⟨pre, hpre⟩ := trailsWith_exists hend
  have hprene : pre ≠ [] := by
    intro hcon
    rw [hcon] at hpre
    exact hne (by rw [hpre]; rfl)
  have hdot : lastDotIdx name = some pre.length := by
    rw [hpre]
    have h0 : lastDotIdx (str (".GPTBAK")) = some 0 := by decide
    have := lastDotIdx_append h0 pre
    simpa using this
  have hlen : name.length = pre.length + 7 := by
    rw [hpre, List.length_append]
    rfl
  have hcond : 0 < pre.length ∧ pre.length < name.length - 1 := by
    refine ⟨List.length_pos.mpr hprene, ?_⟩
    omega
  have hsfx : pySuffix name = str (".GPTBAK") := by
    unfold pySuffix
    rw [hdot]
    dsimp only
    rw [if_pos hcond, hpre]
    exact List.drop_left pre _
  have hstem : pyStem name = pre := by
    unfold pyStem
    rw [hdot]
    dsimp only
    rw [if_pos hcond, hpre]
    exact List.take_left pre _
  have hrn : renameName name comment
      = (pre ++ str (" - ") ++ sanitize_filename_comment comment) ++ str (".GPTBAK") := by
    unfold renameName
    rw [hsfx, hstem]
  have hends : trailsWith (str (".GPTBAK")) (renameName name comment) = true := by
    rw [hrn]
    exact trailsWith_concat _ _
  refine ⟨hends, ?_, ?_⟩
  · rw [hrn]
    intro hm
    rcases List.mem_append.mp hm with hm | hm
    · rcases List.mem_append.mp hm with hm | hm
      · rcases List.mem_append.mp hm with hm | hm
        · exact hslash (by rw [hpre]; exact List.mem_append_left _ hm)
        · exact absurd hm (by decide)
      · exact sanitize_no_slash comment hm
    · exact absurd hm (by decide)
  · intro content hmem hfree
    have hstep : (rename_gptbak_file arts name comment).1
        = arts.map (fun a => if a.1 == name then (renameName name comment, a.2) else a) := by
      simp only [rename_gptbak_file]
      rw [hfree]
      simp
    rw [hstep]
    refine List.mem_filter.mpr ⟨?_, hends⟩
    refine List.mem_map.mpr ⟨(name, content), hmem, ?_⟩
    simp

/--
C10 witness: renaming the artifact `a.GPTBAK` with a comment keeps it in the subsequent
listing.
-/
theorem C10_rename_keeps_listing_witness :
    (renameName (str ("a.GPTBAK")) (str ("note")), str ("body"))
      ∈ list_gptbak_files
        (rename_gptbak_file [(str ("a.GPTBAK"), str ("body"))]
          (str ("a.GPTBAK")) (str ("note"))).1 :=
  (C10_rename_keeps_listing (str ("a.GPTBAK")) (str ("note"))
    [(str ("a.GPTBAK"), str ("body"))] (by decide) (by decide) (by decide)).2.2
    (str ("body")) (by decide) (by decide)

/--
C10 (counterexample): the hidden artifact named exactly ".GPTBAK" is listed by the glob
(pathlib fnmatch also matches leading-dot names), but pathlib gives it an empty suffix,
so renaming appends the comment after the whole name: the result ".GPTBAK - note" no
longer ends in ".GPTBAK" and vanishes from the importer's subsequent artifact listing.
-/
theorem C10_rename_counterexample :
    list_gptbak_files [(str (".GPTBAK"), str ("c"))] = [(str (".GPTBAK"), str ("c"))]
    ∧ renameName (str (".GPTBAK")) (str ("note")) = str (".GPTBAK - note")
    ∧ list_gptbak_files
        ((rename_gptbak_file [(str (".GPTBAK"), str ("c"))]
          (str (".GPTBAK")) (str ("note"))).1) = [] := by
  decide

/-! ## The round trip: auxiliary scanning lemmas -/

theorem dropLit_append (l r : Str) : dropLit l (l ++ r) = some r := by
  induction l with
  | nil => rfl
  | cons c cs ih => simp [dropLit, ih]

theorem takeWhile_append_stop {p : Char → Bool} {l₁ : Str} {c : Char} (l₂ : Str)
    (h : ∀ a ∈ l₁, p a = true) (hc : p c = false) :
    (l₁ ++ c :: l₂).takeWhile p = l₁ := by
  rw [takeWhile_append_all h, List.takeWhile_cons, hc]
  simp

theorem dropWhile_append_stop {p : Char → Bool} {l₁ : Str} {c : Char} (l₂ : Str)
    (h : ∀ a ∈ l₁, p a = true) (hc : p c = false) :
    List.dropWhile p (l₁ ++ c :: l₂) = c :: l₂ := by
  rw [dropWhile_append_all h, List.dropWhile_cons, hc]
  simp

theorem dropWhile_idem {p : Char → Bool} (l : Str) :
    List.dropWhile p (List.dropWhile p l) = List.dropWhile p l := by
  induction l with
  | nil => rfl
  | cons c cs ih =>
    by_cases hc : p c
    · simp [List.dropWhile_cons, hc, ih]
    · simp [List.dropWhile_cons, hc]

theorem pyStrip_dropWhile (x : Str) :
    pyStrip (List.dropWhile isPyWs x) = pyStrip x := by
  unfold pyStrip pyLstrip
  rw [dropWhile_idem]

theorem isPyWs_false_of_digit {c : Char} (h : isDigitC c = true) : isPyWs c = false := by
  cases hx : isPyWs c
  · rfl
  · exfalso
    unfold isPyWs at hx
    unfold isDigitC at h
    rw [Bool.and_eq_true, decide_eq_true_eq, decide_eq_true_eq] at h
    rcases Bool.or_eq_true_iff.mp hx with hy | hy
    on_goal 2 => exact absurd (by rw [show c = Char.ofNat 12 by simpa using hy] at h; revert h; decide) id
    rcases Bool.or_eq_true_iff.mp hy with hy | hy
    on_goal 2 => exact absurd (by rw [show c = Char.ofNat 11 by simpa using hy] at h; revert h; decide) id
    rcases Bool.or_eq_true_iff.mp hy with hy | hy
    on_goal 2 => exact absurd (by rw [show c = '\r' by simpa using hy] at h; revert h; decide) id
    rcases Bool.or_eq_true_iff.mp hy with hy | hy
    on_goal 2 => exact absurd (by rw [show c = '\n' by simpa using hy] at h; revert h; decide) id
    rcases Bool.or_eq_true_iff.mp hy with hy | hy
    · exact absurd (by rw [show c = ' ' by simpa using hy] at h; revert h; decide) id
    · exact absurd (by rw [show c = '\t' by simpa using hy] at h; revert h; decide) id

theorem findHeader_cons {c : Char} {t : Str} {r : Str × Loc × Str}
    (h : matchHeaderAt (c :: t) = some r) : findHeader (c :: t) = some r := by
  unfold findHeader fhAux
  rw [h]
  simp

theorem splitEq5_ok {s : Str} (h : okRun 0 s = true) : splitEq5 s = [s] := by
  unfold splitEq5
  have h2 := splitEqGo_ok h [] []
  rw [List.append_nil] at h2
  simpa [splitEqGo] using h2

theorem okRun_concat {a b : Str} (ha : okRun 0 a = true) (hb : okRun 0 b = true) :
    okRun 0 (a ++ b) = true := by
  rw [okRun_append ha]
  exact hb

/-- The placement of a file in the round-trip statement: the working directory or the
`scripts` subdirectory. -/
def dirFor (b : Bool) : PyPath := if b then [str ("scripts")] else []

theorem locationStr_dirFor (b : Bool) (name : Str) :
    locationStr (dirFor b ++ [name])
      = if b then
          str ("located in the ") ++ [aposc] ++ str ("scripts") ++ [aposc]
            ++ str (" subdirectory")
        else str ("located in the working directory") := by
  cases b
  · have hloc : locInScripts (dirFor false ++ [name]) = false := by
      unfold locInScripts dirFor
      simp
    unfold locationStr
    rw [hloc]
  · have hloc : locInScripts (dirFor true ++ [name]) = true := by
      unfold locInScripts dirFor
      simp
    unfold locationStr
    rw [hloc]

theorem matchLoc_wd (X6 : Str) :
    matchLoc (str ("working directory") ++ (str ("):") ++ X6)) = some (Loc.wd, X6) := by
  unfold matchLoc
  rw [dropLit_append]
  dsimp only
  have h2 : dropLit (str ("):")) (str ("):") ++ X6) = some X6 := dropLit_append _ _
  rw [h2]

theorem matchLoc_scripts (X6 : Str) :
    matchLoc (aposc :: (str ("scripts")
        ++ (aposc :: (str (" subdirectory") ++ (str ("):") ++ X6)))))
      = some (Loc.sub (str ("scripts")), X6) := by
  have halt1 : dropLit (str ("working directory"))
      (aposc :: (str ("scripts") ++ (aposc :: (str (" subdirectory") ++ (str ("):") ++ X6)))))
      = none := by
    rw [show str ("working directory") = 'w' :: str ("orking directory") from by decide]
    simp only [dropLit]
    rw [if_neg (by decide)]
  unfold matchLoc
  rw [halt1]
  have hdc : dropChar aposc
      (aposc :: (str ("scripts") ++ (aposc :: (str (" subdirectory") ++ (str ("):") ++ X6)))))
      = some (str ("scripts") ++ (aposc :: (str (" subdirectory") ++ (str ("):") ++ X6)))) := by
    simp [dropChar]
  rw [hdc]
  dsimp only
  have htw : List.takeWhile (· != aposc)
      (str ("scripts") ++ (aposc :: (str (" subdirectory") ++ (str ("):") ++ X6))))
      = str ("scripts") := takeWhile_append_stop _ (by decide) (by decide)
  have hdw : List.dropWhile (· != aposc)
      (str ("scripts") ++ (aposc :: (str (" subdirectory") ++ (str ("):") ++ X6))))
      = aposc :: (str (" subdirectory") ++ (str ("):") ++ X6)) :=
    dropWhile_append_stop _ (by decide) (by decide)
  rw [htw, hdw]
  rw [if_neg (by decide : ¬ (str ("scripts") = ([] : Str)))]
  have hlit : aposc :: (str (" subdirectory") ++ (str ("):") ++ X6))
      = ([aposc] ++ str (" subdirectory") ++ str ("):")) ++ X6 := by
    simp [List.append_assoc]
  rw [hlit, dropLit_append]

theorem matchHeaderAt_canonical (ds name c' : Str) (locCase : Bool)
    (hds : ds ≠ []) (hdsall : ∀ ch ∈ ds, isDigitC ch = true)
    (hnw : ∀ ch ∈ name, isPyWs ch = false) (hne : name ≠ []) :
    matchHeaderAt
      (str ("\n\n") ++ (ds ++ (str (") ") ++ (name ++ (str (" (")
        ++ (locationStr (dirFor locCase ++ [name])
          ++ (str ("):") ++ (str ("\n\n") ++ (c' ++ str ("\n\n"))))))))))
      = some (name,
          (if locCase then Loc.sub (str ("scripts")) else Loc.wd),
          ((List.takeWhile isPyWs (str ("\n\n") ++ (c' ++ str ("\n\n")))).reverse.takeWhile
              (· != nlc)).reverse
            ++ List.dropWhile isPyWs (str ("\n\n") ++ (c' ++ str ("\n\n")))) := by
  obtain ⟨d, ds2, hd⟩ := List.exists_cons_of_ne_nil hds
  obtain ⟨n0, name2, hn0⟩ := List.exists_cons_of_ne_nil hne
  have hdnw : isPyWs d = false :=
    isPyWs_false_of_digit (hdsall d (by rw [hd]; exact List.mem_cons_self _ _))
  have hn0w : isPyWs n0 = false := hnw n0 (by rw [hn0]; exact List.mem_cons_self _ _)
  -- peel the leading whitespace
  have hws1 : List.dropWhile isPyWs
      (str ("\n\n") ++ (ds ++ (str (") ") ++ (name ++ (str (" (")
        ++ (locationStr (dirFor locCase ++ [name])
          ++ (str ("):") ++ (str ("\n\n") ++ (c' ++ str ("\n\n"))))))))))
      = ds ++ (str (") ") ++ (name ++ (str (" (")
        ++ (locationStr (dirFor locCase ++ [name])
          ++ (str ("):") ++ (str ("\n\n") ++ (c' ++ str ("\n\n")))))))) := by
    rw [dropWhile_append_all (by decide)]
    rw [hd, List.cons_append, List.dropWhile_cons, hdnw]
    simp
  -- the digits
  have hdig1 : List.takeWhile isDigitC
      (ds ++ (str (") ") ++ (name ++ (str (" (")
        ++ (locationStr (dirFor locCase ++ [name])
          ++ (str ("):") ++ (str ("\n\n") ++ (c' ++ str ("\n\n")))))))))
      = ds := by
    have : ds ++ (str (") ") ++ (name ++ (str (" (")
        ++ (locationStr (dirFor locCase ++ [name])
          ++ (str ("):") ++ (str ("\n\n") ++ (c' ++ str ("\n\n"))))))))
        = ds ++ ')' :: (' ' :: (name ++ (str (" (")
          ++ (locationStr (dirFor locCase ++ [name])
            ++ (str ("):") ++ (str ("\n\n") ++ (c' ++ str ("\n\n")))))))) := rfl
    rw [this]
    exact takeWhile_append_stop _ hdsall (by decide)
  have hdig2 : List.dropWhile isDigitC
      (ds ++ (str (") ") ++ (name ++ (str (" (")
        ++ (locationStr (dirFor locCase ++ [name])
          ++ (str ("):") ++ (str ("\n\n") ++ (c' ++ str ("\n\n")))))))))
      = ')' :: (' ' :: (name ++ (str (" (")
        ++ (locationStr (dirFor locCase ++ [name])
          ++ (str ("):") ++ (str ("\n\n") ++ (c' ++ str ("\n\n")))))))) :=
    dropWhile_append_stop _ hdsall (by decide)
  -- the single space before the filename
  have hsp1 : List.takeWhile isPyWs
      (' ' :: (name ++ (str (" (")
        ++ (locationStr (dirFor locCase ++ [name])
          ++ (str ("):") ++ (str ("\n\n") ++ (c' ++ str ("\n\n"))))))))
      = [' '] := by
    rw [List.takeWhile_cons]
    have : isPyWs ' ' = true := by decide
    rw [this]
    simp only [if_true]
    rw [hn0, List.cons_append, List.takeWhile_cons, hn0w]
    simp
  have hsp2 : List.dropWhile isPyWs
      (' ' :: (name ++ (str (" (")
        ++ (locationStr (dirFor locCase ++ [name])
          ++ (str ("):") ++ (str ("\n\n") ++ (c' ++ str ("\n\n"))))))))
      = name ++ (str (" (")
        ++ (locationStr (dirFor locCase ++ [name])
          ++ (str ("):") ++ (str ("\n\n") ++ (c' ++ str ("\n\n")))))) := by
    rw [List.dropWhile_cons]
    have : isPyWs ' ' = true := by decide
    rw [this]
    simp only [if_true]
    rw [hn0, List.cons_append, List.dropWhile_cons, hn0w]
    simp
  -- the filename
  have hfn1 : List.takeWhile (fun c => !isPyWs c)
      (name ++ (str (" (")
        ++ (locationStr (dirFor locCase ++ [name])
          ++ (str ("):") ++ (str ("\n\n") ++ (c' ++ str ("\n\n")))))))
      = name := by
    have hshape : name ++ (str (" (")
        ++ (locationStr (dirFor locCase ++ [name])
          ++ (str ("):") ++ (str ("\n\n") ++ (c' ++ str ("\n\n"))))))
        = name ++ ' ' :: ('(' :: (locationStr (dirFor locCase ++ [name])
          ++ (str ("):") ++ (str ("\n\n") ++ (c' ++ str ("\n\n")))))) := rfl
    rw [hshape]
    refine takeWhile_append_stop _ ?_ (by decide)
    intro a ha
    rw [Bool.not_eq_true']
    exact hnw a ha
  have hfn2 : List.dropWhile (fun c => !isPyWs c)
      (name ++ (str (" (")
        ++ (locationStr (dirFor locCase ++ [name])
          ++ (str ("):") ++ (str ("\n\n") ++ (c' ++ str ("\n\n")))))))
      = ' ' :: ('(' :: (locationStr (dirFor locCase ++ [name])
        ++ (str ("):") ++ (str ("\n\n") ++ (c' ++ str ("\n\n")))))) := by
    refine dropWhile_append_stop _ ?_ (by decide)
    intro a ha
    rw [Bool.not_eq_true']
    exact hnw a ha
  -- the single space before the parenthesis
  have hsp3 : List.takeWhile isPyWs
      (' ' :: ('(' :: (locationStr (dirFor locCase ++ [name])
        ++ (str ("):") ++ (str ("\n\n") ++ (c' ++ str ("\n\n")))))))
      = [' '] := by
    rw [List.takeWhile_cons, show isPyWs ' ' = true from by decide]
    simp only [if_true]
    rw [List.takeWhile_cons, show isPyWs '(' = false from by decide]
    simp
  have hsp4 : List.dropWhile isPyWs
      (' ' :: ('(' :: (locationStr (dirFor locCase ++ [name])
        ++ (str ("):") ++ (str ("\n\n") ++ (c' ++ str ("\n\n")))))))
      = '(' :: (locationStr (dirFor locCase ++ [name])
        ++ (str ("):") ++ (str ("\n\n") ++ (c' ++ str ("\n\n"))))) := by
    rw [List.dropWhile_cons, show isPyWs ' ' = true from by decide]
    simp only [if_true]
    rw [List.dropWhile_cons, show isPyWs '(' = false from by decide]
    simp
  -- the whitespace run after the colon of the header
  have hany : (List.takeWhile isPyWs (str ("\n\n") ++ (c' ++ str ("\n\n")))).any (· == nlc)
      = true := by
    rw [takeWhile_append_all (by decide)]
    simp [nlc]
    exact Or.inl (by decide)
  have hend : matchEnd (str ("\n\n") ++ (c' ++ str ("\n\n")))
      = some (((List.takeWhile isPyWs (str ("\n\n") ++ (c' ++ str ("\n\n")))).reverse.takeWhile
            (· != nlc)).reverse
          ++ List.dropWhile isPyWs (str ("\n\n") ++ (c' ++ str ("\n\n")))) := by
    unfold matchEnd
    dsimp only
    rw [hany]
    simp
  -- assemble the trace
  simp only [matchHeaderAt]
  rw [hws1, hdig1]
  rw [if_neg hds]
  rw [hdig2]
  have hdrp : dropChar ')'
      (')' :: (' ' :: (name ++ (str (" (")
        ++ (locationStr (dirFor locCase ++ [name])
          ++ (str ("):") ++ (str ("\n\n") ++ (c' ++ str ("\n\n")))))))))
      = some (' ' :: (name ++ (str (" (")
        ++ (locationStr (dirFor locCase ++ [name])
          ++ (str ("):") ++ (str ("\n\n") ++ (c' ++ str ("\n\n")))))))) := by
    simp [dropChar]
  rw [hdrp]
  dsimp only
  rw [hsp1]
  rw [if_neg (by decide : ¬ (([' '] : Str) = []))]
  rw [hsp2, hfn1]
  rw [if_neg hne]
  rw [hfn2, hsp3]
  rw [if_neg (by decide : ¬ (([' '] : Str) = []))]
  rw [hsp4]
  cases locCase
  · rw [locationStr_dirFor]
    simp only [Bool.false_eq_true, if_false]
    rw [← List.cons_append,
      show ('(' :: str ("located in the working directory"))
        = str ("(located in the ") ++ str ("working directory") from by decide,
      List.append_assoc, dropLit_append]
    dsimp only
    rw [matchLoc_wd]
    dsimp only
    rw [hend]
  · rw [locationStr_dirFor]
    simp only [if_true]
    rw [← List.cons_append,
      show ('(' :: (str ("located in the ") ++ [aposc] ++ str ("scripts") ++ [aposc]
          ++ str (" subdirectory")))
        = str ("(located in the ")
          ++ (aposc :: (str ("scripts") ++ (aposc :: str (" subdirectory"))))
        from by decide,
      List.append_assoc, dropLit_append, List.cons_append, List.append_assoc,
      List.cons_append]
    dsimp only
    rw [matchLoc_scripts]
    dsimp only
    rw [hend]

/--
C5 (counterexample): on a log whose first line contains "Traceback" and whose tenth line
contains "ERROR", the code starts the excerpt at `max(9 - 8, 0) = 1`, dropping the
Traceback line, whereas the claim prescribes starting from the smaller index
`min(9, 0) = 0`; the two excerpts differ.
-/
theorem C5_log_excerpt_counterexample :
    extract_relevant_log_section
        (str ("Traceback (most recent call last):\na\nb\nc\nd\ne\nf\ng\nh\nERROR boom"))
      ≠ claimedLogExcerpt
        (str ("Traceback (most recent call last):\na\nb\nc\nd\ne\nf\ng\nh\nERROR boom")) := by
  decide

/-! ### C1: the export/import round trip -/

/-- The shape of one numbered section of the Export Document as `splitEq5` hands it to
the importer: the two newlines that followed the previous delimiter, the index digits,
the numbered-header punctuation, the location descriptor, and the file contents framed
by blank lines. -/
def canonSection (ds name c' : Str) (locCase : Bool) : Str :=
  str ("\n\n") ++ (ds ++ (str (") ") ++ (name ++ (str (" (")
    ++ (locationStr (dirFor locCase ++ [name])
      ++ (str ("):") ++ (str ("\n\n") ++ (c' ++ str ("\n\n")))))))))

theorem findHeader_of_match {s : Str} {r : Str × Loc × Str} (hne : s ≠ [])
    (h : matchHeaderAt s = some r) : findHeader s = some r := by
  obtain ⟨c, t, rfl⟩ := List.exists_cons_of_ne_nil hne
  exact findHeader_cons h

theorem canonSection_ne_nil (ds name c' : Str) (locCase : Bool) :
    canonSection ds name c' locCase ≠ [] := by
  unfold canonSection
  rw [show (str ("\n\n") : Str) = [nlc, nlc] from by decide]
  simp

theorem canonSection_cons (ds name c' : Str) (locCase : Bool) :
    canonSection ds name c' locCase
      = nlc :: (nlc :: (ds ++ (str (") ") ++ (name ++ (str (" (")
          ++ (locationStr (dirFor locCase ++ [name])
            ++ (str ("):") ++ (str ("\n\n") ++ (c' ++ str ("\n\n")))))))))) := rfl

theorem pyStrip_canon_rest (c' : Str) :
    pyStrip (((List.takeWhile isPyWs (str ("\n\n") ++ (c' ++ str ("\n\n")))).reverse.takeWhile
          (· != nlc)).reverse
        ++ List.dropWhile isPyWs (str ("\n\n") ++ (c' ++ str ("\n\n"))))
      = pyStrip c' := by
  have hw : ∀ a ∈ ((List.takeWhile isPyWs
      (str ("\n\n") ++ (c' ++ str ("\n\n")))).reverse.takeWhile (· != nlc)).reverse,
      isPyWs a = true := by
    intro a ha
    rw [List.mem_reverse] at ha
    have ha2 := mem_of_mem_takeWhile ha
    rw [List.mem_reverse] at ha2
    exact takeWhile_mem_pred ha2
  rw [pyStrip_ws_left hw, pyStrip_dropWhile,
    @pyStrip_ws_left (str ("\n\n")) (by decide) (c' ++ str ("\n\n")),
    @pyStrip_ws_right (str ("\n\n")) (by decide) c']

theorem sectionToScript_canonical (ds name c' : Str) (locCase : Bool)
    (hds : ds ≠ []) (hdsall : ∀ ch ∈ ds, isDigitC ch = true)
    (hnw : ∀ ch ∈ name, isPyWs ch = false) (hne : name ≠ [])
    (hex : name ∉ EXCLUDED_FILES) :
    sectionToScript (canonSection ds name c' locCase)
      = some ⟨name, dirFor locCase, pyStrip (stripBticks (pyStrip c'))⟩ := by
  cases locCase
  · have hm : matchHeaderAt (canonSection ds name c' false)
        = some (name, Loc.wd,
            ((List.takeWhile isPyWs (str ("\n\n") ++ (c' ++ str ("\n\n")))).reverse.takeWhile
                (· != nlc)).reverse
              ++ List.dropWhile isPyWs (str ("\n\n") ++ (c' ++ str ("\n\n")))) := by
      have h0 := matchHeaderAt_canonical ds name c' false hds hdsall hnw hne
      simp only [Bool.false_eq_true, if_false] at h0
      exact h0
    have hf := findHeader_of_match (canonSection_ne_nil ds name c' false) hm
    unfold sectionToScript
    rw [hf]
    dsimp only
    rw [if_neg hex, pyStrip_canon_rest]
    rfl
  · have hm : matchHeaderAt (canonSection ds name c' true)
        = some (name, Loc.sub (str ("scripts")),
            ((List.takeWhile isPyWs (str ("\n\n") ++ (c' ++ str ("\n\n")))).reverse.takeWhile
                (· != nlc)).reverse
              ++ List.dropWhile isPyWs (str ("\n\n") ++ (c' ++ str ("\n\n")))) := by
      have h0 := matchHeaderAt_canonical ds name c' true hds hdsall hnw hne
      simp only [if_true] at h0
      exact h0
    have hf := findHeader_of_match (canonSection_ne_nil ds name c' true) hm
    unfold sectionToScript
    rw [hf]
    dsimp only
    rw [if_pos rfl]
    dsimp only
    rw [if_neg hex, pyStrip_canon_rest]
    rfl

theorem okRun_locationStr (b : Bool) (name : Str) :
    okRun 0 (locationStr (dirFor b ++ [name])) = true := by
  rw [locationStr_dirFor]
  cases b
  · simp only [Bool.false_eq_true, if_false]
    decide
  · simp only [if_true]
    decide

theorem okRun_content (c' : Str) (h : hasEqRun5 0 c' = false) :
    okRun 0 (c' ++ str ("\n\n")) = true := by
  rw [show (str ("\n\n") : Str) = nlc :: ([nlc] : Str) from by decide]
  rw [okRun_of_no_run5 h (by decide) [nlc]]
  decide

theorem okRun_canonSection (ds name c' : Str) (lc : Bool)
    (hds : eqc ∉ ds) (hname : eqc ∉ name) (hc : hasEqRun5 0 c' = false) :
    okRun 0 (canonSection ds name c' lc) = true := by
  unfold canonSection
  refine okRun_concat (by decide) (okRun_concat (okRun_of_no_eq hds) (okRun_concat (by decide)
    (okRun_concat (okRun_of_no_eq hname) (okRun_concat (by decide)
      (okRun_concat (okRun_locationStr lc name) (okRun_concat (by decide)
        (okRun_concat (by decide) (okRun_content c' hc))))))))

theorem splitEq5_doc {P0 Q1 Q2 t1 t2 : Str}
    (hq1 : Q1 = nlc :: t1) (hq2 : Q2 = nlc :: t2)
    (h0 : okRun 0 P0 = true) (h1 : okRun 0 Q1 = true) (h2 : okRun 0 Q2 = true) :
    splitEq5 (P0 ++ (copyDelim ++ (Q1 ++ (copyDelim ++ (Q2 ++ (copyDelim ++ str ("\n\n")))))))
      = [P0, Q1, Q2, str ("\n\n")] := by
  subst hq1
  subst hq2
  have hrep : copyDelim = List.replicate 34 eqc := by decide
  have hnl : (str ("\n\n") : Str) = nlc :: (nlc :: ([] : Str)) := by decide
  rw [hrep, hnl]
  rw [List.cons_append, List.cons_append]
  rw [splitEq5_delim (by omega) h0 (by decide)]
  rw [← List.cons_append]
  rw [splitEq5_delim (by omega) h1 (by decide)]
  rw [← List.cons_append]
  rw [splitEq5_delim (by omega) h2 (by decide)]
  rw [@splitEq5_ok (nlc :: (nlc :: ([] : Str))) (by decide)]

theorem replaceScript_fst (managed : List PyPath) (acc : ScriptFS × List Mut) (s : Script) :
    (replaceScript managed acc s).1
      = fsWrite ((find_existing_scripts managed s.filename acc.1).foldl fsDelete acc.1)
          (s.directory ++ splitSlash s.filename) s.content := rfl

/--
C1 (amended): exporting two files with distinct plain names placed in the working
directory or the `scripts` subdirectory and importing the resulting Export Document into
an empty directory restores each file at its original path, with content equal to the
newline-normalized original *stripped of leading and trailing whitespace and of a
surrounding backtick frame* — not byte-identical, because `parse_gptbak_file` applies
`.strip().strip` (backtick) `.strip()` to every section body.  Side conditions: each
name is nonempty, free of whitespace, `=`, and `/`, and not an excluded filename, and
neither file content contains a run of five or more consecutive `=` characters.
-/
theorem C1_round_trip (nameA nameB cA cB : Str) (locA locB : Bool) (fs : ReadFS)
    (hfsA : fs (dirFor locA ++ [nameA]) = some cA)
    (hfsB : fs (dirFor locB ++ [nameB]) = some cB)
    (hneA : nameA ≠ []) (hwsA : ∀ ch ∈ nameA, isPyWs ch = false)
    (heqA : eqc ∉ nameA) (hslA : '/' ∉ nameA) (hexA : nameA ∉ EXCLUDED_FILES)
    (hneB : nameB ≠ []) (hwsB : ∀ ch ∈ nameB, isPyWs ch = false)
    (heqB : eqc ∉ nameB) (hslB : '/' ∉ nameB) (hexB : nameB ∉ EXCLUDED_FILES)
    (hAB : nameA ≠ nameB)
    (hrA : hasEqRun5 0 (normNewlines cA) = false)
    (hrB : hasEqRun5 0 (normNewlines cB) = false) :
    (replace_scripts
        (parse_gptbak_file
          (generate_output fs
            [(nameA, dirFor locA ++ [nameA]), (nameB, dirFor locB ++ [nameB])]))
        managedDirs []).1
      = [(dirFor locA ++ [nameA], pyStrip (stripBticks (pyStrip (normNewlines cA)))),
         (dirFor locB ++ [nameB], pyStrip (stripBticks (pyStrip (normNewlines cB))))] := by
  have hsA : splitSlash nameA = [nameA] := by
    unfold splitSlash
    rw [splitOnChar_no_sep hslA]
  have hsB : splitSlash nameB = [nameB] := by
    unfold splitSlash
    rw [splitOnChar_no_sep hslB]
  have hdoc : generate_output fs
        [(nameA, dirFor locA ++ [nameA]), (nameB, dirFor locB ++ [nameB])]
      = (copyHeaderText ++ str ("\n\n"))
        ++ (copyDelim ++ (canonSection (natStr 1) nameA (normNewlines cA) locA
          ++ (copyDelim ++ (canonSection (natStr 2) nameB (normNewlines cB) locB
            ++ (copyDelim ++ str ("\n\n")))))) := by
    simp [generate_output, exportSections, List.enumFrom, renderSection, read_file_contents,
      hfsA, hfsB, basename_concat, copyHeader, canonSection, List.append_assoc]
  have hsplit : splitEq5 (generate_output fs
        [(nameA, dirFor locA ++ [nameA]), (nameB, dirFor locB ++ [nameB])])
      = [copyHeaderText ++ str ("\n\n"),
         canonSection (natStr 1) nameA (normNewlines cA) locA,
         canonSection (natStr 2) nameB (normNewlines cB) locB,
         str ("\n\n")] := by
    rw [hdoc]
    exact splitEq5_doc (canonSection_cons _ _ _ _) (canonSection_cons _ _ _ _) (by decide)
      (okRun_canonSection _ _ _ _ (by decide) heqA hrA)
      (okRun_canonSection _ _ _ _ (by decide) heqB hrB)
  have hparse : parse_gptbak_file (generate_output fs
        [(nameA, dirFor locA ++ [nameA]), (nameB, dirFor locB ++ [nameB])])
      = [⟨nameA, dirFor locA, pyStrip (stripBticks (pyStrip (normNewlines cA)))⟩,
         ⟨nameB, dirFor locB, pyStrip (stripBticks (pyStrip (normNewlines cB)))⟩] := by
    unfold parse_gptbak_file
    rw [hsplit]
    have h0 : sectionToScript (copyHeaderText ++ str ("\n\n")) = none := by decide
    have h3 : sectionToScript (str ("\n\n")) = none := by decide
    simp only [List.filterMap_cons, h0, h3,
      sectionToScript_canonical (natStr 1) nameA (normNewlines cA) locA (by decide) (by decide)
        hwsA hneA hexA,
      sectionToScript_canonical (natStr 2) nameB (normNewlines cB) locB (by decide) (by decide)
        hwsB hneB hexB,
      List.filterMap_nil]
  rw [hparse]
  have hbA : basenameOf (dirFor locA ++ [nameA]) = nameA := basename_concat _ _
  have key : ∀ q : PyPath, basenameOf q = nameB
      → ((dirFor locA ++ [nameA] : PyPath) == q) = false := by
    intro q hq
    rw [Bool.eq_false_iff]
    intro hcon
    rw [beq_iff_eq] at hcon
    have h2 := congrArg basenameOf hcon
    rw [hbA, hq] at h2
    exact hAB h2
  unfold replace_scripts
  rw [List.foldl_cons, List.foldl_cons, List.foldl_nil]
  have hfs1 : (replaceScript managedDirs (([] : ScriptFS), ([] : List Mut))
        ⟨nameA, dirFor locA, pyStrip (stripBticks (pyStrip (normNewlines cA)))⟩).1
      = [(dirFor locA ++ [nameA], pyStrip (stripBticks (pyStrip (normNewlines cA))))] := by
    rw [replaceScript_fst]
    dsimp only
    have hf : find_existing_scripts managedDirs nameA ([] : ScriptFS) = [] := by
      simp [find_existing_scripts, managedDirs]
    rw [hf, List.foldl_nil, hsA]
    simp [fsWrite]
  rw [replaceScript_fst]
  dsimp only
  rw [hfs1]
  have hfB : find_existing_scripts managedDirs nameB
        [(dirFor locA ++ [nameA], pyStrip (stripBticks (pyStrip (normNewlines cA))))] = [] := by
    simp only [find_existing_scripts, managedDirs, hsB, List.map_cons, List.map_nil]
    simp [key [nameB] (by simp [basenameOf]), key [str ("scripts"), nameB] (by simp [basenameOf])]
  rw [hfB, List.foldl_nil, hsB]
  have hne12p : ¬ ((dirFor locB ++ [nameB] : PyPath) = dirFor locA ++ [nameA]) := by
    intro hcon
    have h2 := congrArg basenameOf hcon
    rw [basename_concat, basename_concat] at h2
    exact hAB h2.symm
  simp [fsWrite, hne12p]

/--
C1 witness: the amended round trip instantiated on `a.py` ("x = 1\n") in the working
directory and `b.py` ("y = 2") in the scripts subdirectory.
-/
theorem C1_round_trip_witness :
    (replace_scripts
        (parse_gptbak_file
          (generate_output
            (fun p => if p = [str ("a.py")] then some (str ("x = 1\n"))
              else if p = [str ("scripts"), str ("b.py")] then some (str ("y = 2")) else none)
            [(str ("a.py"), dirFor false ++ [str ("a.py")]),
             (str ("b.py"), dirFor true ++ [str ("b.py")])]))
        managedDirs []).1
      = [(dirFor false ++ [str ("a.py")],
            pyStrip (stripBticks (pyStrip (normNewlines (str ("x = 1\n")))))),
         (dirFor true ++ [str ("b.py")],
            pyStrip (stripBticks (pyStrip (normNewlines (str ("y = 2"))))))] :=
  C1_round_trip (str ("a.py")) (str ("b.py")) (str ("x = 1\n")) (str ("y = 2")) false true
    (fun p => if p = [str ("a.py")] then some (str ("x = 1\n"))
      else if p = [str ("scripts"), str ("b.py")] then some (str ("y = 2")) else none)
    (by decide) (by decide) (by decide) (by decide) (by decide) (by decide) (by decide)
    (by decide) (by decide) (by decide) (by decide) (by decide) (by decide) (by decide)
    (by decide)

set_option maxRecDepth 100000 in
/--
C1 (counterexample): the claimed byte-identical round trip fails — `a.py` is exported
with content "x = 1\n" but restored with content "x = 1": `parse_gptbak_file` strips the
trailing newline, so the restored bytes differ from the newline-normalized original.
-/
theorem C1_round_trip_counterexample :
    (replace_scripts
        (parse_gptbak_file
          (generate_output
            (fun p => if p = [str ("a.py")] then some (str ("x = 1\n"))
              else if p = [str ("scripts"), str ("b.py")] then some (str ("y = 2")) else none)
            [(str ("a.py"), [str ("a.py")]),
             (str ("b.py"), [str ("scripts"), str ("b.py")])]))
        managedDirs []).1
      = [([str ("a.py")], str ("x = 1")), ([str ("scripts"), str ("b.py")], str ("y = 2"))]
    ∧ str ("x = 1") ≠ normNewlines (str ("x = 1\n")) := by
  decide
